import Mathlib

/-!
Verification of `mapmarkers.py` (NerdNu/mapmarkers): a shallow embedding of the
map-marker reconciliation tool together with proofs about its components.

The tool reads Minecraft map item save files (`map_<n>.dat`), reduces them to a
canonical table of the highest map id per map-centre coordinate pair
(`loadMaps`), reads the dynmap `markers.yml` configuration restricted to one
world and marker set (`loadMarkers`), and then reconciles the two by emitting
`dmarker delete` / `dmarker add` console commands (the `__main__` block).

Modelling conventions:
  * Python `dict`s are modelled as association lists (`List (κ × V)`) with
    Python's update semantics: assigning to an existing key replaces the value
    in place, assigning to a fresh key appends at the end, and iteration is in
    insertion order (`ainsert`, `alookup`).
  * Python `str(n)` for integers is modelled by `natStr` / `intStr`, a decimal
    printer producing the same digit strings as Python.
  * The fatal control paths (`sys.exit(1)` after a printed error, and uncaught
    exceptions such as `KeyError` and `AttributeError`) are modelled by
    explicit result constructors.
-/

namespace MapMarkers

/-! ### Association lists modelling Python dicts -/

/-- Dictionary lookup: `d[k]` / `k in d`, returning the value at the first
(and, for a genuine dict, only) occurrence of the key. -/
def alookup {κ V : Type} [DecidableEq κ] : List (κ × V) → κ → Option V
  | [], _ => none
  | (k, v) :: rest, key => if k = key then some v else alookup rest key

/-- Dictionary assignment `d[k] = v`: an existing key keeps its position and
gets the new value, a fresh key is appended at the end. -/
def ainsert {κ V : Type} [DecidableEq κ] : List (κ × V) → κ → V → List (κ × V)
  | [], key, val => [(key, val)]
  | (k, v) :: rest, key, val =>
    if k = key then (k, val) :: rest else (k, v) :: ainsert rest key val

@[simp] theorem alookup_nil {κ V : Type} [DecidableEq κ] (key : κ) :
    alookup ([] : List (κ × V)) key = none := rfl

@[simp] theorem alookup_cons {κ V : Type} [DecidableEq κ] (k : κ) (v : V) (rest : List (κ × V))
    (key : κ) :
    alookup ((k, v) :: rest) key = if k = key then some v else alookup rest key := rfl

theorem alookup_ainsert {κ V : Type} [DecidableEq κ] (d : List (κ × V)) (k : κ) (v : V)
    (key : κ) :
    alookup (ainsert d k v) key = if k = key then some v else alookup d key := by
  induction d with
  | nil => simp [ainsert]
  | cons p rest ih =>
    obtain ⟨k0, v0⟩ := p
    by_cases h0 : k0 = k
    · subst h0
      by_cases h1 : k0 = key <;> simp [ainsert, h1]
    · by_cases h1 : k0 = key
      · subst h1
        have : ¬ k = k0 := fun h => h0 h.symm
        simp [ainsert, h0, this]
      · simp [ainsert, h0, h1, ih]

theorem ainsert_nil {κ V : Type} [DecidableEq κ] (k : κ) (v : V) :
    ainsert ([] : List (κ × V)) k v = [(k, v)] := rfl

theorem ainsert_cons_eq {κ V : Type} [DecidableEq κ] {k0 k : κ} (v0 : V) (rest : List (κ × V))
    (v : V) (h : k0 = k) : ainsert ((k0, v0) :: rest) k v = (k0, v) :: rest := by
  simp [ainsert, h]

theorem ainsert_cons_ne {κ V : Type} [DecidableEq κ] {k0 k : κ} (v0 : V) (rest : List (κ × V))
    (v : V) (h : k0 ≠ k) : ainsert ((k0, v0) :: rest) k v = (k0, v0) :: ainsert rest k v := by
  simp [ainsert, h]

theorem mem_keys_ainsert {κ V : Type} [DecidableEq κ] (d : List (κ × V)) (k : κ) (v : V)
    (key : κ) :
    key ∈ (ainsert d k v).map Prod.fst ↔ key = k ∨ key ∈ d.map Prod.fst := by
  induction d with
  | nil => simp [ainsert]
  | cons p rest ih =>
    obtain ⟨k0, v0⟩ := p
    by_cases h0 : k0 = k
    · subst h0
      rw [ainsert_cons_eq v0 rest v rfl]
      simp only [List.map_cons, List.mem_cons]
      tauto
    · rw [ainsert_cons_ne v0 rest v h0]
      simp only [List.map_cons, List.mem_cons, ih]
      tauto

theorem ainsert_keys_nodup {κ V : Type} [DecidableEq κ] (d : List (κ × V)) (k : κ) (v : V)
    (h : (d.map Prod.fst).Nodup) : ((ainsert d k v).map Prod.fst).Nodup := by
  induction d with
  | nil => simp [ainsert]
  | cons p rest ih =>
    obtain ⟨k0, v0⟩ := p
    simp only [List.map_cons, List.nodup_cons] at h
    by_cases h0 : k0 = k
    · subst h0
      rw [ainsert_cons_eq v0 rest v rfl]
      simp only [List.map_cons, List.nodup_cons]
      exact h
    · rw [ainsert_cons_ne v0 rest v h0]
      simp only [List.map_cons, List.nodup_cons]
      refine ⟨?_, ih h.2⟩
      rw [mem_keys_ainsert]
      rintro (hc | hc)
      · exact h0 hc
      · exact h.1 hc

/-- A fresh-key insert is an append at the end. -/
theorem ainsert_eq_append {κ V : Type} [DecidableEq κ] (d : List (κ × V)) (k : κ) (v : V)
    (h : k ∉ d.map Prod.fst) : ainsert d k v = d ++ [(k, v)] := by
  induction d with
  | nil => simp [ainsert]
  | cons p rest ih =>
    obtain ⟨k0, v0⟩ := p
    simp only [List.map_cons, List.mem_cons] at h
    push_neg at h
    have : k0 ≠ k := fun hh => h.1 hh.symm
    simp [ainsert, this, ih h.2]

/-- With nodup keys, membership of an entry coincides with lookup. -/
theorem alookup_eq_some_iff_mem {κ V : Type} [DecidableEq κ] (d : List (κ × V))
    (h : (d.map Prod.fst).Nodup) (k : κ) (v : V) :
    alookup d k = some v ↔ (k, v) ∈ d := by
  induction d with
  | nil => simp
  | cons p rest ih =>
    obtain ⟨k0, v0⟩ := p
    simp only [List.map_cons, List.nodup_cons] at h
    by_cases h0 : k0 = k
    · subst h0
      rw [alookup_cons, if_pos rfl]
      simp only [Option.some.injEq, List.mem_cons]
      constructor
      · rintro rfl
        exact Or.inl rfl
      · rintro (hv | hv)
        · exact (congrArg Prod.snd hv).symm
        · exact absurd (List.mem_map_of_mem Prod.fst hv) h.1
    · rw [alookup_cons, if_neg h0]
      simp only [List.mem_cons]
      rw [ih h.2]
      constructor
      · exact Or.inr
      · rintro (hv | hv)
        · exact absurd (congrArg Prod.fst hv).symm h0
        · exact hv

theorem alookup_isSome_of_mem {κ V : Type} [DecidableEq κ] (d : List (κ × V)) (k : κ) (v : V)
    (h : (k, v) ∈ d) : alookup d k ≠ none := by
  induction d with
  | nil => simp at h
  | cons p rest ih =>
    obtain ⟨k0, v0⟩ := p
    rcases List.mem_cons.mp h with h | h
    · cases h
      simp
    · by_cases h0 : k0 = k
      · simp [h0]
      · simpa [h0] using ih h

theorem mem_of_alookup_eq_some {κ V : Type} [DecidableEq κ] {d : List (κ × V)} {k : κ} {v : V}
    (h : alookup d k = some v) : (k, v) ∈ d := by
  induction d with
  | nil => simp at h
  | cons p rest ih =>
    obtain ⟨k0, v0⟩ := p
    by_cases h0 : k0 = k
    · subst h0
      rw [alookup_cons, if_pos rfl] at h
      cases h
      exact List.mem_cons_self _ _
    · rw [alookup_cons, if_neg h0] at h
      exact List.mem_cons_of_mem _ (ih h)

theorem alookup_eq_none_iff {κ V : Type} [DecidableEq κ] (d : List (κ × V)) (k : κ) :
    alookup d k = none ↔ k ∉ d.map Prod.fst := by
  induction d with
  | nil => simp
  | cons p rest ih =>
    obtain ⟨k0, v0⟩ := p
    by_cases h0 : k0 = k
    · subst h0; simp
    · simp [h0, ih, Ne.symm h0]

/-! ### Decimal strings: the model of Python `str(n)` / f-string interpolation -/

/-- Decimal digit character for a value below ten. -/
def digitChar10 (d : Nat) : Char :=
  match d with
  | 0 => '0' | 1 => '1' | 2 => '2' | 3 => '3' | 4 => '4'
  | 5 => '5' | 6 => '6' | 7 => '7' | 8 => '8' | _ => '9'

/-- Digit-accumulating printer with explicit fuel, so that it is structurally
recursive and evaluates inside the kernel; `fuel > n` always suffices since the
argument shrinks by a factor of ten each step. -/
def natCharsAux (fuel : Nat) (n : Nat) (acc : List Char) : List Char :=
  match fuel with
  | 0 => acc
  | fuel + 1 =>
    if n < 10 then digitChar10 n :: acc
    else natCharsAux fuel (n / 10) (digitChar10 (n % 10) :: acc)

/-- Decimal digit characters of a natural number, most significant first,
exactly as Python prints it (no leading zeros, `0` prints as "0"). -/
def natChars (n : Nat) : List Char := natCharsAux (n + 1) n []

theorem natCharsAux_acc (fuel : Nat) :
    ∀ n acc, natCharsAux fuel n acc = natCharsAux fuel n [] ++ acc := by
  induction fuel with
  | zero => intro n acc; rfl
  | succ fuel ih =>
    intro n acc
    by_cases h : n < 10
    · simp [natCharsAux, h]
    · rw [natCharsAux, if_neg h, natCharsAux, if_neg h, ih (n / 10), ih (n / 10) [_]]
      simp

theorem natCharsAux_fuel (n : Nat) :
    ∀ fuel fuel2 acc, n < fuel → n < fuel2 →
      natCharsAux fuel n acc = natCharsAux fuel2 n acc := by
  induction n using Nat.strong_induction_on with
  | _ n ih =>
    intro fuel fuel2 acc h1 h2
    match fuel, fuel2 with
    | f + 1, g + 1 =>
      by_cases h : n < 10
      · simp [natCharsAux, h]
      · rw [natCharsAux, if_neg h, natCharsAux, if_neg h]
        have hdiv : n / 10 < n := Nat.div_lt_self (by omega) (by omega)
        exact ih (n / 10) hdiv f g _ (by omega) (by omega)

/-- The defining recursion of the printer, with the fuel hidden. -/
theorem natChars_unfold (n : Nat) :
    natChars n = if n < 10 then [digitChar10 n]
      else natChars (n / 10) ++ [digitChar10 (n % 10)] := by
  by_cases h : n < 10
  · simp [natChars, natCharsAux, h]
  · rw [if_neg h, natChars, natCharsAux, if_neg h,
      natCharsAux_acc n (n / 10) [digitChar10 (n % 10)]]
    have hdiv : n / 10 < n := Nat.div_lt_self (by omega) (by omega)
    rw [natCharsAux_fuel (n / 10) n (n / 10 + 1) [] (by omega) (by omega)]
    rfl

/-- Decimal digit characters of an integer, with a leading minus sign for
negative values, exactly as Python prints it. -/
def intChars (i : Int) : List Char :=
  if i < 0 then '-' :: natChars (-i).toNat else natChars i.toNat

/-- Python `str(n)` for a natural number. -/
def natStr (n : Nat) : String := ⟨natChars n⟩

/-- The numeric value of a digit character (used to read the printer back). -/
def digitVal (c : Char) : Nat := c.toNat - 48

/-- The numeric value of a list of decimal digit characters, as computed by
Python `int(s)` on a string of digits (leading zeros allowed). -/
def digitsVal (l : List Char) : Nat := l.foldl (fun a c => 10 * a + digitVal c) 0

theorem digitsVal_append_single (l : List Char) (c : Char) :
    digitsVal (l ++ [c]) = 10 * digitsVal l + digitVal c := by
  simp [digitsVal, List.foldl_append]

theorem digitVal_digitChar10 {d : Nat} (h : d < 10) : digitVal (digitChar10 d) = d := by
  interval_cases d <;> rfl

theorem digitChar10_isDigit {d : Nat} (h : d < 10) : (digitChar10 d).isDigit = true := by
  interval_cases d <;> rfl

theorem digitsVal_natChars (n : Nat) : digitsVal (natChars n) = n := by
  induction n using Nat.strong_induction_on with
  | _ n ih =>
    by_cases h : n < 10
    · rw [natChars_unfold, if_pos h]
      simp [digitsVal, digitVal_digitChar10 h]
    · rw [natChars_unfold, if_neg h]
      rw [digitsVal_append_single, ih (n / 10) (Nat.div_lt_self (by omega) (by omega)),
        digitVal_digitChar10 (Nat.mod_lt n (by omega))]
      omega

theorem natChars_injective : Function.Injective natChars := by
  intro a b h
  have := digitsVal_natChars a
  rw [h, digitsVal_natChars] at this
  omega

theorem natChars_ne_nil (n : Nat) : natChars n ≠ [] := by
  by_cases h : n < 10
  · rw [natChars_unfold, if_pos h]; simp
  · rw [natChars_unfold, if_neg h]; simp

theorem natChars_isDigit (n : Nat) : ∀ c ∈ natChars n, c.isDigit = true := by
  induction n using Nat.strong_induction_on with
  | _ n ih =>
    intro c hc
    by_cases h : n < 10
    · rw [natChars_unfold, if_pos h] at hc
      simp only [List.mem_singleton] at hc
      exact hc ▸ digitChar10_isDigit h
    · rw [natChars_unfold, if_neg h] at hc
      rcases List.mem_append.mp hc with hc | hc
      · exact ih (n / 10) (Nat.div_lt_self (by omega) (by omega)) c hc
      · simp only [List.mem_singleton] at hc
        exact hc ▸ digitChar10_isDigit (Nat.mod_lt n (by omega))

theorem intChars_isDigitOrMinus (i : Int) :
    ∀ c ∈ intChars i, c.isDigit = true ∨ c = '-' := by
  intro c hc
  rw [intChars] at hc
  by_cases h : i < 0
  · rw [if_pos h] at hc
    rcases List.mem_cons.mp hc with hc | hc
    · exact Or.inr hc
    · exact Or.inl (natChars_isDigit _ c hc)
  · rw [if_neg h] at hc
    exact Or.inl (natChars_isDigit _ c hc)

theorem minus_not_mem_natChars (n : Nat) : '-' ∉ natChars n := by
  intro hmem
  have := natChars_isDigit n '-' hmem
  simp [Char.isDigit] at this

theorem intChars_injective : Function.Injective intChars := by
  intro a b h
  rw [intChars, intChars] at h
  by_cases ha : a < 0 <;> by_cases hb : b < 0
  · rw [if_pos ha, if_pos hb] at h
    have htail : natChars (-a).toNat = natChars (-b).toNat := by
      injection h
    have := natChars_injective htail
    omega
  · rw [if_pos ha, if_neg hb] at h
    exact absurd (h ▸ List.mem_cons_self '-' _) (minus_not_mem_natChars b.toNat)
  · rw [if_neg ha, if_pos hb] at h
    exact absurd (h.symm ▸ List.mem_cons_self '-' _) (minus_not_mem_natChars a.toNat)
  · rw [if_neg ha, if_neg hb] at h
    have := natChars_injective h
    omega

theorem colon_not_mem_intChars (i : Int) : ':' ∉ intChars i := by
  intro hmem
  rcases intChars_isDigitOrMinus i ':' hmem with h | h
  · simp [Char.isDigit] at h
  · simp at h

theorem append_colon_injective {a b c d : List Char} (ha : ':' ∉ a) (hc : ':' ∉ c)
    (h : a ++ ':' :: b = c ++ ':' :: d) : a = c ∧ b = d := by
  induction a generalizing c with
  | nil =>
    cases c with
    | nil =>
      simp only [List.nil_append] at h
      exact ⟨rfl, by injection h⟩
    | cons y cs =>
      simp only [List.nil_append, List.cons_append] at h
      have : y = ':' := by injection h with h1 _; exact h1.symm
      exact absurd (this ▸ List.mem_cons_self y cs) hc
  | cons x as ih =>
    cases c with
    | nil =>
      simp only [List.cons_append, List.nil_append] at h
      have : x = ':' := by injection h
      exact absurd (this ▸ List.mem_cons_self x as) ha
    | cons y cs =>
      simp only [List.cons_append] at h
      have hxy : x = y := by injection h
      have htail : as ++ ':' :: b = cs ++ ':' :: d := by injection h
      have := ih (fun hm => ha (List.mem_cons_of_mem x hm))
        (fun hm => hc (List.mem_cons_of_mem y hm)) htail
      exact ⟨by rw [hxy, this.1], this.2⟩

/-! ### Data model -/

/-- The centre coordinates stored per map: the Python dict literal
`\x7b'x': x, 'z': z\x7d` built in `loadMaps`. -/
structure MapXZ where
  x : Int
  z : Int
deriving DecidableEq, Repr

/-- One decoded map item: the per-file data read in `loadMaps` — the id parsed
from the filename, and `data.dimension`, `data.scale`, `data.xCenter`,
`data.zCenter` from the NBT payload. -/
structure MapRecord where
  id : Nat
  dimension : String
  scale : Int
  x : Int
  z : Int
deriving DecidableEq, Repr

/-- One dynmap marker as read from `markers.yml`: the fields the script
accesses (`world`, `label`, and the integer-coerced coordinates). -/
structure Marker where
  world : String
  label : String
  x : Int
  y : Int
  z : Int
deriving DecidableEq, Repr

/-- A console mutation issued by the reconciliation loop: `deleteMarker`
(line 231 / line 239) or `addMarker` (lines 240 and 243). -/
inductive Action where
  | delete (id : String)
  | add (id : String) (x y z : Int)
deriving DecidableEq, Repr

/-- Y coordinate to create markers at (line 21 of the script). -/
def MARKER_Y : Int := 64

/-! ### Map Reducer: `loadMaps`, lines 108-147 -/

/-- The dict key `f'\x7bx\x7d:\x7bz\x7d'` from line 138. -/
def coordsKey (x z : Int) : String := ⟨intChars x ++ ':' :: intChars z⟩

theorem coordsKey_injective {x z x1 z1 : Int} (h : coordsKey x z = coordsKey x1 z1) :
    x = x1 ∧ z = z1 := by
  have hdata : intChars x ++ ':' :: intChars z = intChars x1 ++ ':' :: intChars z1 := by
    injection h
  have := append_colon_injective (colon_not_mem_intChars x) (colon_not_mem_intChars x1) hdata
  exact ⟨intChars_injective this.1, intChars_injective this.2⟩

/-- The loop state of `loadMaps`: the dict from stringified centre coordinates
to the highest map id seen there (line 120), and the dict from map id to
centre coordinates for every scale-0 map (line 123). -/
structure MapsState where
  highestMapID : List (String × Nat)
  allMaps : List (Nat × MapXZ)
deriving Repr

/-- Lines 130-141 of the loop body: record a map with a known id. Zoomed-out
maps (nonzero scale) are ignored; otherwise `allMaps[mapID]` is set and
`highestMapID[coordsKey]` is raised to `mapID` if absent or lower. -/
def recordMap (st : MapsState) (mapID : Nat) (scale : Int) (x z : Int) : MapsState :=
  if scale = 0 then
    let allMaps := ainsert st.allMaps mapID ⟨x, z⟩
    let ck := coordsKey x z
    let highest :=
      match alookup st.highestMapID ck with
      | none => ainsert st.highestMapID ck mapID
      | some old => if old < mapID then ainsert st.highestMapID ck mapID else st.highestMapID
    ⟨highest, allMaps⟩
  else st

/-- The whole loop body (lines 127-141) at the level of already-decoded
records: maps of another dimension are skipped. -/
def loadMapsStep (world : String) (st : MapsState) (r : MapRecord) : MapsState :=
  if r.dimension = "minecraft:" ++ world then recordMap st r.id r.scale r.x r.z else st

/-- Lines 144-147: build the result dict, one entry `str(mapID) -> allMaps[mapID]`
per entry of `highestMapID`, in iteration order. (`allMaps[mapID]` always hits:
every id stored in `highestMapID` was stored in `allMaps` on the same loop
iteration, so the `getD` default is never used.) -/
def loadMapsFinish (st : MapsState) : List (String × MapXZ) :=
  st.highestMapID.foldl
    (fun res p => ainsert res (natStr p.2) ((alookup st.allMaps p.2).getD ⟨0, 0⟩)) []

/-- The Map Reducer on decoded records: `loadMaps` minus file enumeration and
NBT decoding (lines 122-147). -/
def reduceMaps (world : String) (records : List MapRecord) : List (String × MapXZ) :=
  loadMapsFinish (records.foldl (loadMapsStep world) ⟨[], []⟩)

/-! ### Marker Loader: `loadMarkers`, lines 78-104 -/

/-- One named marker set inside the `sets` mapping of `markers.yml`; `none`
models the absence of the `markers` key under the set. -/
structure MarkerSetEntry where
  markers : Option (List (String × Marker))
deriving DecidableEq, Repr

/-- The parsed markers document; `sets = none` models a YAML document without
the top-level `sets` key (line 95). -/
structure MarkersDoc where
  sets : Option (List (String × MarkerSetEntry))
deriving DecidableEq, Repr

/-- What opening and parsing the markers file can yield: an `IOError` while
opening or reading (caught at line 91), a `yaml.YAMLError` from a file that is
not valid YAML (raised inside the `try` but not caught, since only `IOError`
is handled), or a parsed document. -/
inductive MarkersInput where
  | ioError
  | yamlError
  | parsed (doc : MarkersDoc)
deriving DecidableEq, Repr

/-- An uncaught Python exception. -/
inductive PyException where
  | keyError (key : String)
  | yamlError
  | attributeError
deriving DecidableEq, Repr

/-- The observable outcome of a fatal-capable routine: a normal return, the
controlled error path (message on stderr then `sys.exit(1)`), or an uncaught
exception aborting the interpreter. -/
inductive LoadResult (α : Type) where
  | ok (val : α)
  | exit1 (msg : String)
  | uncaught (exc : PyException)
deriving DecidableEq, Repr

/-- The filter on line 102: keep a marker only if it is in the requested world
and its label equals its id. -/
def markerKeptB (world : String) (id : String) (m : Marker) : Bool :=
  m.world == world && m.label == id

/-- The result-building loop of lines 99-104: `result[id] = marker` for every
kept marker, in iteration order. -/
def buildMarkerTable (world : String) (items : List (String × Marker)) :
    List (String × Marker) :=
  items.foldl (fun res p => if markerKeptB world p.1 p.2 then ainsert res p.1 p.2 else res) []

/-- `loadMarkers` (lines 78-104): open and parse the file, fail fatally on
`IOError` or a missing top-level `sets` key, then index
`markers['sets'][markerSet]['markers']` (each unguarded subscript raises
`KeyError` when the key is absent) and filter to the marker table. -/
def loadMarkers (input : MarkersInput) (markerSet world : String) :
    LoadResult (List (String × Marker)) :=
  match input with
  | .ioError => .exit1 "cannot open markers file to read"
  | .yamlError => .uncaught .yamlError
  | .parsed doc =>
    match doc.sets with
    | none => .exit1 "doesn't seem to be a markers file"
    | some sets =>
      match alookup sets markerSet with
      | none => .uncaught (.keyError markerSet)
      | some entry =>
        match entry.markers with
        | none => .uncaught (.keyError "markers")
        | some items => .ok (buildMarkerTable world items)

/-! ### Reconciler: the `__main__` loops, lines 227-243 -/

/-- The id a console action addresses. -/
def Action.targetId : Action → String
  | .delete id => id
  | .add id _ _ _ => id

/-- Lines 227-231: delete every marker whose id is not a current map id,
iterating over the marker table in order. -/
def pruneActions (maps : List (String × MapXZ)) :
    List (String × Marker) → List Action
  | [] => []
  | (id, _) :: rest =>
    (if alookup maps id = none then [Action.delete id] else []) ++ pruneActions maps rest

/-- Lines 235-243, body for one entry of `maps`: re-create the marker when any
of x, y, z disagrees with `(x, MARKER_Y, z)`, create it when it is missing,
do nothing when it matches exactly. -/
def syncOne (markers : List (String × Marker)) (p : String × MapXZ) : List Action :=
  match alookup markers p.1 with
  | some m =>
    if p.2.x ≠ m.x ∨ MARKER_Y ≠ m.y ∨ p.2.z ≠ m.z then
      [Action.delete p.1, Action.add p.1 p.2.x MARKER_Y p.2.z]
    else []
  | none => [Action.add p.1 p.2.x MARKER_Y p.2.z]

/-- The full ordered action sequence of one reconciliation run: the prune pass
followed by the sync pass. -/
def reconcile (maps : List (String × MapXZ)) (markers : List (String × Marker)) :
    List Action :=
  pruneActions maps markers ++ maps.flatMap (syncOne markers)

/-- The subsequence of actions addressing one id, in emission order. -/
def actionsFor (id : String) (as : List Action) : List Action :=
  as.filter fun a => a.targetId == id

/-- The effect of one dispatched action on the external marker table:
`dmarker delete id:<id>` removes the marker with that id, `dmarker add`
creates a marker whose label equals its id at the given coordinates in the
target world. -/
def applyAction (world : String) (tbl : List (String × Marker)) : Action → List (String × Marker)
  | .delete id => tbl.filter fun p => p.1 ≠ id
  | .add id x y z => ainsert tbl id ⟨world, id, x, y, z⟩

def applyActions (world : String) (tbl : List (String × Marker)) (as : List Action) :
    List (String × Marker) :=
  as.foldl (applyAction world) tbl

/-! ### CLI entry: lines 201-206 -/

/-- How `__main__` starts: `usage()` prints the usage text to stderr and exits
with status 1 whenever `len(sys.argv) != 6`; otherwise the five positional
arguments are unpacked and the run proceeds. -/
inductive MainStart where
  | usageExit
  | run (server world mapsDir markersFileName markerSet : String)
deriving DecidableEq, Repr

/-- Lines 201-206: `sys.argv` holds the program name followed by the
positional arguments; exactly a length-6 argv is unpacked, anything else takes
the `usage()` exit before any other work. -/
def parseArgs (argv : List String) : MainStart :=
  match argv with
  | [_, server, world, mapsDir, markersFileName, markerSet] =>
    .run server world mapsDir markersFileName markerSet
  | _ => .usageExit

/-! ### Record Loader: file layer of `loadMaps`, lines 124-130 -/

/-- One file of the maps directory: its basename and the NBT fields `loadMaps`
reads from it. -/
structure MapFile where
  name : String
  dimension : String
  scale : Int
  xCenter : Int
  zCenter : Int
deriving DecidableEq, Repr

/-- The glob pattern `map_*.dat` of line 125 applied to a basename. -/
def globMatch (name : String) : Bool :=
  "map_".data.isPrefixOf name.data && ".dat".data.isSuffixOf name.data

/-- Does `.dat` (any character, then the literal characters d, a, t) match at
the head of the remainder? -/
def matchAnyDat : List Char → Bool
  | _ :: c1 :: c2 :: c3 :: _ => c1 == 'd' && c2 == 'a' && c3 == 't'
  | _ => false

/-- Greedy backtracking for the group `(\d+)` of the pattern: the candidate
group is handed over reversed; while `.dat` does not match the remainder, the
last digit of the group is given back to the remainder. `none` is the regex
engine failing, i.e. `re.match` returning `None`. -/
def regexDigits : List Char → List Char → Option (List Char)
  | [], _ => none
  | c :: revds, rest =>
    if matchAnyDat rest then some ((c :: revds).reverse)
    else regexDigits revds (c :: rest)

/-- The match `re.match('.*/map_(\d+).dat', file)` of lines 128-129 followed by
`int(match.group(1))`, applied to the basename: the full path is
`mapsDir + '/' + name`, and (provided the directory part contains no further
occurrence of `/map_` followed by a digit) the greedy `.*` stops at the final
path separator, so the pattern reduces to matching `(\d+).dat` at the head of
the basename after the literal `map_`. `none` models `match` being `None`, on
which `match.group(1)` raises `AttributeError`. -/
def mapIdOfName (name : String) : Option Nat :=
  match name.data with
  | 'm' :: 'a' :: 'p' :: '_' :: s =>
    (regexDigits (s.takeWhile Char.isDigit).reverse (s.dropWhile Char.isDigit)).map digitsVal
  | _ => none

/-- The file-level `loadMaps` (lines 108-147): enumerate the directory with the
glob in sorted order, and for every file whose `data.dimension` matches the
target world parse the map id out of the filename — aborting with an uncaught
`AttributeError` (modelled as `none`) when the regex does not match — then
fold the decoded records exactly as `reduceMaps` does. -/
def loadMapsFiles (world : String) (files : List MapFile) :
    Option (List (String × MapXZ)) :=
  -- `sorted(...)` on the full paths: with a common `mapsDir + '/'` prefix this
  -- is the stable sort of the basenames, modelled by insertion sort (stable
  -- sorts under a total order agree).
  let globbed := (files.filter fun f => globMatch f.name).insertionSort
    fun a b => a.name ≤ b.name
  (globbed.foldlM
    (fun st f =>
      if f.dimension = "minecraft:" ++ world then
        match mapIdOfName f.name with
        | some mapID => some (recordMap st mapID f.scale f.xCenter f.zCenter)
        | none => none
      else some st)
    (⟨[], []⟩ : MapsState)).map loadMapsFinish

/-! ### Reconciler lemmas: the per-id action subsequence -/

@[simp] theorem targetId_delete (id : String) : (Action.delete id).targetId = id := rfl

@[simp] theorem targetId_add (id : String) (x y z : Int) :
    (Action.add id x y z).targetId = id := rfl

@[simp] theorem actionsFor_nil (id : String) : actionsFor id [] = [] := rfl

theorem actionsFor_append (id : String) (a b : List Action) :
    actionsFor id (a ++ b) = actionsFor id a ++ actionsFor id b := by
  simp [actionsFor]

theorem actionsFor_pruneActions_nil (maps : List (String × MapXZ))
    (markers : List (String × Marker)) (id : String)
    (h : id ∉ markers.map Prod.fst) :
    actionsFor id (pruneActions maps markers) = [] := by
  induction markers with
  | nil => rfl
  | cons p rest ih =>
    obtain ⟨k, m⟩ := p
    simp only [List.map_cons, List.mem_cons] at h
    push_neg at h
    have hk : (k == id) = false := beq_eq_false_iff_ne.mpr (fun hh => h.1 hh.symm)
    rw [pruneActions, actionsFor_append, ih h.2]
    by_cases hmk : alookup maps k = none
    · rw [if_pos hmk]
      simp [actionsFor, hk]
    · rw [if_neg hmk]
      rfl

theorem actionsFor_pruneActions (maps : List (String × MapXZ))
    (markers : List (String × Marker)) (hk : (markers.map Prod.fst).Nodup) (id : String) :
    actionsFor id (pruneActions maps markers) =
      match alookup markers id, alookup maps id with
      | some _, none => [Action.delete id]
      | _, _ => [] := by
  induction markers with
  | nil => rfl
  | cons p rest ih =>
    obtain ⟨k, m⟩ := p
    simp only [List.map_cons, List.nodup_cons] at hk
    rw [pruneActions, actionsFor_append]
    by_cases hki : k = id
    · subst hki
      rw [alookup_cons, if_pos rfl, actionsFor_pruneActions_nil maps rest k hk.1]
      by_cases hmk : alookup maps k = none
      · rw [if_pos hmk, hmk]
        simp [actionsFor]
      · rw [if_neg hmk]
        cases hv : alookup maps k with
        | none => exact absurd hv hmk
        | some d => rfl
    · have hkb : (k == id) = false := beq_eq_false_iff_ne.mpr hki
      rw [alookup_cons, if_neg hki, ih hk.2]
      by_cases hmk : alookup maps k = none
      · rw [if_pos hmk]
        simp [actionsFor, hkb]
      · rw [if_neg hmk]
        rfl

theorem syncOne_eval (markers : List (String × Marker)) (id : String) (d : MapXZ) :
    syncOne markers (id, d) =
      match alookup markers id with
      | some m =>
        if d.x ≠ m.x ∨ MARKER_Y ≠ m.y ∨ d.z ≠ m.z then
          [Action.delete id, Action.add id d.x MARKER_Y d.z]
        else []
      | none => [Action.add id d.x MARKER_Y d.z] := rfl

theorem actionsFor_syncOne_self (markers : List (String × Marker)) (p : String × MapXZ) :
    actionsFor p.1 (syncOne markers p) = syncOne markers p := by
  rw [syncOne]
  cases h : alookup markers p.1 with
  | some m =>
    by_cases hc : p.2.x ≠ m.x ∨ MARKER_Y ≠ m.y ∨ p.2.z ≠ m.z
    · simp [actionsFor, hc]
    · simp [actionsFor, hc]
  | none => simp [actionsFor]

theorem actionsFor_syncOne_ne (markers : List (String × Marker)) (p : String × MapXZ)
    (id : String) (h : p.1 ≠ id) : actionsFor id (syncOne markers p) = [] := by
  have hb : (p.1 == id) = false := beq_eq_false_iff_ne.mpr h
  rw [syncOne]
  cases hm : alookup markers p.1 with
  | some m =>
    by_cases hc : p.2.x ≠ m.x ∨ MARKER_Y ≠ m.y ∨ p.2.z ≠ m.z
    · simp [actionsFor, hc, hb]
    · simp [actionsFor, hc]
  | none => simp [actionsFor, hb]

theorem actionsFor_sync_nil (maps : List (String × MapXZ))
    (markers : List (String × Marker)) (id : String) (h : id ∉ maps.map Prod.fst) :
    actionsFor id (maps.flatMap (syncOne markers)) = [] := by
  induction maps with
  | nil => rfl
  | cons p rest ih =>
    simp only [List.map_cons, List.mem_cons] at h
    push_neg at h
    rw [List.flatMap_cons, actionsFor_append,
      actionsFor_syncOne_ne markers p id (fun hh => h.1 hh.symm), ih h.2]
    rfl

theorem actionsFor_sync (maps : List (String × MapXZ)) (markers : List (String × Marker))
    (hm : (maps.map Prod.fst).Nodup) (id : String) :
    actionsFor id (maps.flatMap (syncOne markers)) =
      match alookup maps id with
      | some d => syncOne markers (id, d)
      | none => [] := by
  induction maps with
  | nil => rfl
  | cons p rest ih =>
    obtain ⟨k, d⟩ := p
    simp only [List.map_cons, List.nodup_cons] at hm
    rw [List.flatMap_cons, actionsFor_append]
    by_cases hki : k = id
    · subst hki
      rw [alookup_cons, if_pos rfl]
      rw [actionsFor_syncOne_self markers (k, d), actionsFor_sync_nil rest markers k hm.1]
      simp
    · rw [alookup_cons, if_neg hki]
      rw [actionsFor_syncOne_ne markers (k, d) id hki, ih hm.2]
      rfl

/-- What one run emits for a given id, by the four cases of the algorithm. -/
def expectedActions (maps : List (String × MapXZ)) (markers : List (String × Marker))
    (id : String) : List Action :=
  match alookup maps id, alookup markers id with
  | none, none => []
  | none, some _ => [Action.delete id]
  | some d, none => [Action.add id d.x MARKER_Y d.z]
  | some d, some m =>
    if d.x ≠ m.x ∨ MARKER_Y ≠ m.y ∨ d.z ≠ m.z then
      [Action.delete id, Action.add id d.x MARKER_Y d.z]
    else []

/-- Master characterization of one reconciliation run: the subsequence of
actions addressing any id is exactly determined by the two table lookups. -/
theorem actionsFor_reconcile (maps : List (String × MapXZ))
    (markers : List (String × Marker)) (hm : (maps.map Prod.fst).Nodup)
    (hk : (markers.map Prod.fst).Nodup) (id : String) :
    actionsFor id (reconcile maps markers) = expectedActions maps markers id := by
  rw [reconcile, actionsFor_append, actionsFor_pruneActions maps markers hk id,
    actionsFor_sync maps markers hm id, expectedActions]
  cases hmp : alookup maps id with
  | none => cases hmk : alookup markers id <;> rfl
  | some d =>
    cases hmk : alookup markers id with
    | none =>
      dsimp only
      rw [syncOne_eval, hmk]
      rfl
    | some m =>
      dsimp only
      rw [syncOne_eval, hmk]
      rfl

/-- C1: in one reconciliation run, a marker id absent from the canonical map
table receives exactly Delete(id); a map id absent from the marker table
receives exactly Add(id, x, MARKER_Y, z); a map id whose existing marker
differs in any of x, y, z receives Delete(id) followed by Add(id, x, MARKER_Y,
z); and a map id whose existing marker matches exactly receives nothing. -/
theorem c1_reconciler_actions (maps : List (String × MapXZ))
    (markers : List (String × Marker)) (hm : (maps.map Prod.fst).Nodup)
    (hk : (markers.map Prod.fst).Nodup) :
    (∀ id, id ∈ markers.map Prod.fst → alookup maps id = none →
      actionsFor id (reconcile maps markers) = [Action.delete id]) ∧
    (∀ id d, alookup maps id = some d → alookup markers id = none →
      actionsFor id (reconcile maps markers) = [Action.add id d.x MARKER_Y d.z]) ∧
    (∀ id d m, alookup maps id = some d → alookup markers id = some m →
      (d.x ≠ m.x ∨ MARKER_Y ≠ m.y ∨ d.z ≠ m.z) →
      actionsFor id (reconcile maps markers) =
        [Action.delete id, Action.add id d.x MARKER_Y d.z]) ∧
    (∀ id d m, alookup maps id = some d → alookup markers id = some m →
      d.x = m.x ∧ MARKER_Y = m.y ∧ d.z = m.z →
      actionsFor id (reconcile maps markers) = []) := by
  refine ⟨?_, ?_, ?_, ?_⟩
  · intro id hmem hnone
    rw [actionsFor_reconcile maps markers hm hk id, expectedActions, hnone]
    cases hmk : alookup markers id with
    | none => exact absurd ((alookup_eq_none_iff markers id).mp hmk) (by simpa using hmem)
    | some m => rfl
  · intro id d hsome hnone
    rw [actionsFor_reconcile maps markers hm hk id, expectedActions, hsome, hnone]
  · intro id d m hsome hmk hdiff
    rw [actionsFor_reconcile maps markers hm hk id, expectedActions, hsome, hmk]
    exact if_pos hdiff
  · intro id d m hsome hmk heq
    rw [actionsFor_reconcile maps markers hm hk id, expectedActions, hsome, hmk]
    refine if_neg ?_
    push_neg
    exact heq

/-- Witness for C1: concrete tables exercising all four cases. -/
theorem c1_reconciler_actions_witness :
    actionsFor "9" (reconcile [("5", ⟨100, -200⟩), ("6", ⟨1, 2⟩), ("7", ⟨3, 4⟩)]
        [("5", ⟨"w", "5", 100, 64, -200⟩), ("7", ⟨"w", "7", 3, 9, 4⟩),
          ("9", ⟨"w", "9", 0, 64, 0⟩)]) = [Action.delete "9"] ∧
    actionsFor "6" (reconcile [("5", ⟨100, -200⟩), ("6", ⟨1, 2⟩), ("7", ⟨3, 4⟩)]
        [("5", ⟨"w", "5", 100, 64, -200⟩), ("7", ⟨"w", "7", 3, 9, 4⟩),
          ("9", ⟨"w", "9", 0, 64, 0⟩)]) = [Action.add "6" 1 MARKER_Y 2] ∧
    actionsFor "7" (reconcile [("5", ⟨100, -200⟩), ("6", ⟨1, 2⟩), ("7", ⟨3, 4⟩)]
        [("5", ⟨"w", "5", 100, 64, -200⟩), ("7", ⟨"w", "7", 3, 9, 4⟩),
          ("9", ⟨"w", "9", 0, 64, 0⟩)]) =
      [Action.delete "7", Action.add "7" 3 MARKER_Y 4] ∧
    actionsFor "5" (reconcile [("5", ⟨100, -200⟩), ("6", ⟨1, 2⟩), ("7", ⟨3, 4⟩)]
        [("5", ⟨"w", "5", 100, 64, -200⟩), ("7", ⟨"w", "7", 3, 9, 4⟩),
          ("9", ⟨"w", "9", 0, 64, 0⟩)]) = [] := by
  have h := c1_reconciler_actions [("5", ⟨100, -200⟩), ("6", ⟨1, 2⟩), ("7", ⟨3, 4⟩)]
    [("5", ⟨"w", "5", 100, 64, -200⟩), ("7", ⟨"w", "7", 3, 9, 4⟩),
      ("9", ⟨"w", "9", 0, 64, 0⟩)] (by decide) (by decide)
  exact ⟨h.1 "9" (by decide) (by decide),
    h.2.1 "6" ⟨1, 2⟩ (by decide) (by decide),
    h.2.2.1 "7" ⟨3, 4⟩ ⟨"w", "7", 3, 9, 4⟩ (by decide) (by decide) (by decide),
    h.2.2.2 "5" ⟨100, -200⟩ ⟨"w", "5", 100, 64, -200⟩ (by decide) (by decide) (by decide)⟩

/-- C4: in one run, the action subsequence for any id is one of [],
[Delete], [Add], [Delete, Add]; in particular no Add precedes a Delete for the
same id. -/
theorem c4_per_id_shape (maps : List (String × MapXZ)) (markers : List (String × Marker))
    (hm : (maps.map Prod.fst).Nodup) (hk : (markers.map Prod.fst).Nodup) (id : String) :
    actionsFor id (reconcile maps markers) = [] ∨
    actionsFor id (reconcile maps markers) = [Action.delete id] ∨
    (∃ x y z, actionsFor id (reconcile maps markers) = [Action.add id x y z]) ∨
    (∃ x y z, actionsFor id (reconcile maps markers) =
      [Action.delete id, Action.add id x y z]) := by
  rw [actionsFor_reconcile maps markers hm hk id, expectedActions]
  cases alookup maps id with
  | none =>
    cases alookup markers id with
    | none => exact Or.inl rfl
    | some m => exact Or.inr (Or.inl rfl)
  | some d =>
    cases alookup markers id with
    | none => exact Or.inr (Or.inr (Or.inl ⟨d.x, MARKER_Y, d.z, rfl⟩))
    | some m =>
      dsimp only
      by_cases hc : d.x ≠ m.x ∨ MARKER_Y ≠ m.y ∨ d.z ≠ m.z
      · rw [if_pos hc]
        exact Or.inr (Or.inr (Or.inr ⟨d.x, MARKER_Y, d.z, rfl⟩))
      · rw [if_neg hc]
        exact Or.inl rfl

/-- Witness for C4 at a concrete run and id. -/
theorem c4_per_id_shape_witness :
    actionsFor "7" (reconcile [("7", ⟨3, 4⟩)] [("7", ⟨"w", "7", 3, 9, 4⟩)]) = [] ∨
    actionsFor "7" (reconcile [("7", ⟨3, 4⟩)] [("7", ⟨"w", "7", 3, 9, 4⟩)]) =
      [Action.delete "7"] ∨
    (∃ x y z, actionsFor "7" (reconcile [("7", ⟨3, 4⟩)] [("7", ⟨"w", "7", 3, 9, 4⟩)]) =
      [Action.add "7" x y z]) ∨
    (∃ x y z, actionsFor "7" (reconcile [("7", ⟨3, 4⟩)] [("7", ⟨"w", "7", 3, 9, 4⟩)]) =
      [Action.delete "7", Action.add "7" x y z]) :=
  c4_per_id_shape [("7", ⟨3, 4⟩)] [("7", ⟨"w", "7", 3, 9, 4⟩)] (by decide) (by decide) "7"

/-! ### Applying dispatched actions to the external marker table -/

theorem alookup_filter_ne (tbl : List (String × Marker)) (delId id : String) :
    alookup (tbl.filter fun p => p.1 ≠ delId) id =
      if id = delId then none else alookup tbl id := by
  induction tbl with
  | nil => simp
  | cons p rest ih =>
    obtain ⟨k, m⟩ := p
    rw [List.filter_cons]
    by_cases hk : k = delId
    · rw [if_neg (by simp [hk]), ih]
      by_cases hid : id = delId
      · rw [if_pos hid, if_pos hid]
      · rw [if_neg hid, if_neg hid, alookup_cons,
          if_neg (fun hc => hid (by rw [← hc]; exact hk))]
    · rw [if_pos (by simp [hk]), alookup_cons, alookup_cons, ih]
      by_cases hkid : k = id
      · subst hkid
        rw [if_pos rfl, if_pos rfl, if_neg hk]
      · rw [if_neg hkid, if_neg hkid]

theorem applyAction_lookup (world : String) (tbl : List (String × Marker)) (a : Action)
    (id : String) :
    alookup (applyAction world tbl a) id =
      if a.targetId = id then
        match a with
        | .delete _ => none
        | .add i x y z => some ⟨world, i, x, y, z⟩
      else alookup tbl id := by
  cases a with
  | delete d =>
    rw [applyAction, alookup_filter_ne, targetId_delete]
    by_cases h : d = id
    · rw [if_pos h.symm, if_pos h]
    · rw [if_neg (fun hc => h hc.symm), if_neg h]
  | add i x y z =>
    rw [applyAction, alookup_ainsert, targetId_add]

@[simp] theorem applyActions_nil (world : String) (tbl : List (String × Marker)) :
    applyActions world tbl [] = tbl := rfl

@[simp] theorem applyActions_cons (world : String) (tbl : List (String × Marker))
    (a : Action) (as : List Action) :
    applyActions world tbl (a :: as) = applyActions world (applyAction world tbl a) as := rfl

theorem applyActions_lookup_congr (world : String) (S : List Action) (id : String) :
    ∀ tbl tbl1 : List (String × Marker), alookup tbl id = alookup tbl1 id →
      alookup (applyActions world tbl S) id = alookup (applyActions world tbl1 S) id := by
  induction S with
  | nil => intro tbl tbl1 h; exact h
  | cons a S ih =>
    intro tbl tbl1 h
    rw [applyActions_cons, applyActions_cons]
    apply ih
    rw [applyAction_lookup, applyAction_lookup]
    by_cases ht : a.targetId = id
    · rw [if_pos ht, if_pos ht]
    · rw [if_neg ht, if_neg ht]
      exact h

theorem applyActions_lookup_actionsFor (world : String) (as : List Action) (id : String) :
    ∀ tbl : List (String × Marker),
      alookup (applyActions world tbl as) id =
        alookup (applyActions world tbl (actionsFor id as)) id := by
  induction as with
  | nil => intro tbl; rfl
  | cons a as ih =>
    intro tbl
    by_cases ht : a.targetId = id
    · have hb : (a.targetId == id) = true := beq_iff_eq.mpr ht
      rw [applyActions_cons, ih]
      rw [show actionsFor id (a :: as) = a :: actionsFor id as by
        simp [actionsFor, List.filter_cons, hb]]
      rw [applyActions_cons]
    · have hb : (a.targetId == id) = false := beq_eq_false_iff_ne.mpr ht
      rw [applyActions_cons, ih]
      rw [show actionsFor id (a :: as) = actionsFor id as by
        simp [actionsFor, List.filter_cons, hb]]
      apply applyActions_lookup_congr
      rw [applyAction_lookup, if_neg ht]

theorem applyAction_keys_nodup (world : String) (tbl : List (String × Marker)) (a : Action)
    (h : (tbl.map Prod.fst).Nodup) : ((applyAction world tbl a).map Prod.fst).Nodup := by
  cases a with
  | delete d =>
    rw [applyAction]
    exact h.sublist (List.Sublist.map Prod.fst (List.filter_sublist tbl))
  | add i x y z =>
    rw [applyAction]
    exact ainsert_keys_nodup tbl i _ h

theorem applyActions_keys_nodup (world : String) (as : List Action) :
    ∀ tbl : List (String × Marker), (tbl.map Prod.fst).Nodup →
      ((applyActions world tbl as).map Prod.fst).Nodup := by
  induction as with
  | nil => intro tbl h; exact h
  | cons a as ih =>
    intro tbl h
    rw [applyActions_cons]
    exact ih _ (applyAction_keys_nodup world tbl a h)

/-- Lookup in the marker table after one full run has been applied: map ids
carry a marker at the canonical position, everything else is gone. -/
theorem applyActions_reconcile_lookup (world : String) (maps : List (String × MapXZ))
    (markers : List (String × Marker)) (hm : (maps.map Prod.fst).Nodup)
    (hk : (markers.map Prod.fst).Nodup) (id : String) :
    (alookup maps id = none →
      alookup (applyActions world markers (reconcile maps markers)) id = none) ∧
    (∀ d, alookup maps id = some d →
      ∃ m1, alookup (applyActions world markers (reconcile maps markers)) id = some m1 ∧
        m1.x = d.x ∧ m1.y = MARKER_Y ∧ m1.z = d.z) := by
  rw [applyActions_lookup_actionsFor world _ id markers,
    actionsFor_reconcile maps markers hm hk id]
  constructor
  · intro hnone
    rw [expectedActions, hnone]
    cases hmk : alookup markers id with
    | none => exact hmk
    | some m =>
      dsimp only
      rw [applyActions_cons, applyActions_nil, applyAction_lookup, targetId_delete,
        if_pos rfl]
  · intro d hsome
    rw [expectedActions, hsome]
    cases hmk : alookup markers id with
    | none =>
      dsimp only
      rw [applyActions_cons, applyActions_nil, applyAction_lookup, targetId_add, if_pos rfl]
      exact ⟨_, rfl, rfl, rfl, rfl⟩
    | some m =>
      dsimp only
      by_cases hc : d.x ≠ m.x ∨ MARKER_Y ≠ m.y ∨ d.z ≠ m.z
      · rw [if_pos hc, applyActions_cons, applyActions_cons, applyActions_nil,
          applyAction_lookup, targetId_add, if_pos rfl]
        exact ⟨_, rfl, rfl, rfl, rfl⟩
      · rw [if_neg hc, applyActions_nil, hmk]
        push_neg at hc
        exact ⟨m, rfl, hc.1.symm, hc.2.1.symm, hc.2.2.symm⟩

theorem pruneActions_eq_nil (maps : List (String × MapXZ))
    (markers : List (String × Marker))
    (h : ∀ p ∈ markers, alookup maps p.1 ≠ none) :
    pruneActions maps markers = [] := by
  induction markers with
  | nil => rfl
  | cons p rest ih =>
    obtain ⟨k, m⟩ := p
    rw [pruneActions, if_neg (h (k, m) (List.mem_cons_self _ _)),
      ih (fun q hq => h q (List.mem_cons_of_mem _ hq))]
    rfl

/-- C3: applying the actions of one run to the marker table (deletes remove
the id, adds create the marker at (x, MARKER_Y, z)) makes a second run over
the updated table, with the canonical map table unchanged, emit no actions. -/
theorem c3_reconcile_idempotent (world : String) (maps : List (String × MapXZ))
    (markers : List (String × Marker)) (hm : (maps.map Prod.fst).Nodup)
    (hk : (markers.map Prod.fst).Nodup) :
    reconcile maps (applyActions world markers (reconcile maps markers)) = [] := by
  have hchar := fun id => applyActions_reconcile_lookup world maps markers hm hk id
  rw [reconcile, List.append_eq_nil]
  constructor
  · apply pruneActions_eq_nil
    intro p hp hnone
    have hne := alookup_isSome_of_mem _ p.1 p.2 hp
    exact hne ((hchar p.1).1 hnone)
  · rw [List.flatMap_eq_nil_iff]
    intro p hp
    obtain ⟨id, d⟩ := p
    have hsome : alookup maps id = some d := (alookup_eq_some_iff_mem maps hm id d).mpr hp
    obtain ⟨m1, hm1, hx, hy, hz⟩ := (hchar id).2 d hsome
    have hcond : ¬(d.x ≠ m1.x ∨ MARKER_Y ≠ m1.y ∨ d.z ≠ m1.z) := by
      push_neg
      exact ⟨hx.symm, hy.symm, hz.symm⟩
    rw [syncOne_eval, hm1]
    dsimp only
    rw [if_neg hcond]

/-- Witness for C3 at concrete tables covering delete, add, and move. -/
theorem c3_reconcile_idempotent_witness :
    reconcile [("5", ⟨100, -200⟩), ("6", ⟨1, 2⟩)]
      (applyActions "w" [("5", ⟨"w", "5", 50, 64, -200⟩), ("9", ⟨"w", "9", 0, 64, 0⟩)]
        (reconcile [("5", ⟨100, -200⟩), ("6", ⟨1, 2⟩)]
          [("5", ⟨"w", "5", 50, 64, -200⟩), ("9", ⟨"w", "9", 0, 64, 0⟩)])) = [] :=
  c3_reconcile_idempotent "w" [("5", ⟨100, -200⟩), ("6", ⟨1, 2⟩)]
    [("5", ⟨"w", "5", 50, 64, -200⟩), ("9", ⟨"w", "9", 0, 64, 0⟩)] (by decide) (by decide)

/-! ### Marker Loader lemmas -/

theorem markerKeptB_iff (world id : String) (m : Marker) :
    markerKeptB world id m = true ↔ m.world = world ∧ m.label = id := by
  simp [markerKeptB]

theorem buildMarkerTable_go (world : String) :
    ∀ (items : List (String × Marker)) (acc : List (String × Marker)),
      (items.map Prod.fst).Nodup →
      (∀ k ∈ acc.map Prod.fst, k ∉ items.map Prod.fst) →
      items.foldl
          (fun res p => if markerKeptB world p.1 p.2 then ainsert res p.1 p.2 else res) acc =
        acc ++ items.filter fun p => markerKeptB world p.1 p.2 := by
  intro items
  induction items with
  | nil => intro acc _ _; simp
  | cons p rest ih =>
    intro acc hn hdisj
    obtain ⟨k, m⟩ := p
    simp only [List.map_cons, List.nodup_cons] at hn
    rw [List.foldl_cons, List.filter_cons]
    by_cases hp : markerKeptB world k m = true
    · rw [if_pos hp, if_pos hp]
      have hfresh : k ∉ acc.map Prod.fst := by
        intro hc
        exact hdisj k hc (by simp)
      rw [show (ainsert acc (k, m).1 (k, m).2) = acc ++ [(k, m)] from
        ainsert_eq_append acc k m hfresh]
      rw [ih (acc ++ [(k, m)]) hn.2 ?_]
      · simp
      · intro q hq
        rw [List.map_append] at hq
        rcases List.mem_append.mp hq with hq1 | hq1
        · intro hc
          exact hdisj q hq1 (by simp [hc])
        · simp only [List.map_cons, List.map_nil, List.mem_singleton] at hq1
          exact hq1 ▸ hn.1
    · rw [if_neg hp, if_neg hp]
      refine ih acc hn.2 fun q hq hc => hdisj q hq (by simp [hc])

theorem buildMarkerTable_eq_filter (world : String) (items : List (String × Marker))
    (hn : (items.map Prod.fst).Nodup) :
    buildMarkerTable world items = items.filter fun p => markerKeptB world p.1 p.2 := by
  rw [buildMarkerTable, buildMarkerTable_go world items [] hn (by simp)]
  rfl

theorem action_mem_syncOne_targetId (markers : List (String × Marker)) (p : String × MapXZ)
    (a : Action) (h : a ∈ syncOne markers p) : a.targetId = p.1 := by
  rw [syncOne] at h
  cases hm : alookup markers p.1 with
  | some m =>
    rw [hm] at h
    dsimp only at h
    by_cases hc : p.2.x ≠ m.x ∨ MARKER_Y ≠ m.y ∨ p.2.z ≠ m.z
    · rw [if_pos hc] at h
      simp only [List.mem_cons, List.mem_singleton, List.not_mem_nil, or_false] at h
      rcases h with h | h <;> (rw [h]; rfl)
    · rw [if_neg hc] at h
      simp at h
  | none =>
    rw [hm] at h
    dsimp only at h
    simp only [List.mem_singleton] at h
    rw [h]
    rfl

theorem delete_mem_pruneActions (maps : List (String × MapXZ)) :
    ∀ (markers : List (String × Marker)) (id : String),
      Action.delete id ∈ pruneActions maps markers → id ∈ markers.map Prod.fst := by
  intro markers
  induction markers with
  | nil => intro id h; simp [pruneActions] at h
  | cons p rest ih =>
    intro id h
    obtain ⟨k, m⟩ := p
    rw [pruneActions] at h
    rcases List.mem_append.mp h with h | h
    · by_cases hmk : alookup maps k = none
      · rw [if_pos hmk] at h
        simp only [List.mem_singleton, Action.delete.injEq] at h
        simp [h]
      · rw [if_neg hmk] at h
        simp at h
    · exact List.mem_cons_of_mem _ (ih id h)

theorem add_not_mem_pruneActions (maps : List (String × MapXZ)) :
    ∀ (markers : List (String × Marker)) (id : String) (x y z : Int),
      Action.add id x y z ∉ pruneActions maps markers := by
  intro markers
  induction markers with
  | nil => intro id x y z h; simp [pruneActions] at h
  | cons p rest ih =>
    intro id x y z h
    obtain ⟨k, m⟩ := p
    rw [pruneActions] at h
    rcases List.mem_append.mp h with h | h
    · by_cases hmk : alookup maps k = none
      · rw [if_pos hmk] at h
        simp at h
      · rw [if_neg hmk] at h
        simp at h
    · exact ih id x y z h

theorem delete_mem_reconcile (maps : List (String × MapXZ))
    (markers : List (String × Marker)) (id : String)
    (h : Action.delete id ∈ reconcile maps markers) : id ∈ markers.map Prod.fst := by
  rcases List.mem_append.mp h with h | h
  · exact delete_mem_pruneActions maps markers id h
  · obtain ⟨p, hp, hmem⟩ := List.mem_flatMap.mp h
    have htarget := action_mem_syncOne_targetId markers p _ hmem
    rw [targetId_delete] at htarget
    rw [syncOne] at hmem
    cases hm : alookup markers p.1 with
    | some m =>
      subst htarget
      exact List.mem_map_of_mem Prod.fst (mem_of_alookup_eq_some hm)
    | none =>
      rw [hm] at hmem
      simp at hmem

theorem add_mem_reconcile (maps : List (String × MapXZ))
    (markers : List (String × Marker)) (id : String) (x y z : Int)
    (h : Action.add id x y z ∈ reconcile maps markers) : id ∈ maps.map Prod.fst := by
  rcases List.mem_append.mp h with h | h
  · exact absurd h (add_not_mem_pruneActions maps markers id x y z)
  · obtain ⟨p, hp, hmem⟩ := List.mem_flatMap.mp h
    have htarget := action_mem_syncOne_targetId markers p _ hmem
    rw [targetId_add] at htarget
    subst htarget
    exact List.mem_map_of_mem Prod.fst hp

/-- C5 counterexample: a marker whose label differs from its id is dropped
from the marker table, yet its id is the target of an emitted Add action when
the canonical map table holds a map with that id — so an excluded marker's id
can be the target of an emitted action, contrary to the claim. -/
theorem c5_counterexample :
    loadMarkers (.parsed ⟨some [("markers", ⟨some [("5", ⟨"w", "foo", 0, 64, 0⟩)]⟩)]⟩)
        "markers" "w" = .ok [] ∧
    ¬((⟨"w", "foo", 0, 64, 0⟩ : Marker).world = "w" ∧
      (⟨"w", "foo", 0, 64, 0⟩ : Marker).label = "5") ∧
    (∃ a ∈ reconcile [("5", ⟨100, -200⟩)]
        (buildMarkerTable "w" [("5", ⟨"w", "foo", 0, 64, 0⟩)]), a.targetId = "5") := by
  refine ⟨by decide, by decide, ?_⟩
  exact ⟨Action.add "5" 100 MARKER_Y (-200), by decide, by decide⟩

/-- C5 (amended): `loadMarkers` returns exactly the markers of the requested
set whose world matches and whose label equals their id; an excluded marker's
id is never the target of a Delete action, and is the target of an Add only
when it is also a key of the canonical map table. -/
theorem c5_marker_loader (world markerSet : String)
    (sets : List (String × MarkerSetEntry)) (entry : MarkerSetEntry)
    (items : List (String × Marker)) (maps : List (String × MapXZ))
    (hset : alookup sets markerSet = some entry) (hitems : entry.markers = some items)
    (hn : (items.map Prod.fst).Nodup) :
    loadMarkers (.parsed ⟨some sets⟩) markerSet world =
      .ok (buildMarkerTable world items) ∧
    (∀ id m, (id, m) ∈ buildMarkerTable world items ↔
      (id, m) ∈ items ∧ m.world = world ∧ m.label = id) ∧
    (∀ id m, (id, m) ∈ items → ¬(m.world = world ∧ m.label = id) →
      Action.delete id ∉ reconcile maps (buildMarkerTable world items) ∧
      ∀ x y z, Action.add id x y z ∈ reconcile maps (buildMarkerTable world items) →
        id ∈ maps.map Prod.fst) := by
  refine ⟨?_, ?_, ?_⟩
  · simp only [loadMarkers, hset, hitems]
  · intro id m
    rw [buildMarkerTable_eq_filter world items hn, List.mem_filter]
    exact and_congr_right fun _ => markerKeptB_iff world id m
  · intro id m hmem hexcl
    constructor
    · intro hdel
      have hkey := delete_mem_reconcile maps _ id hdel
      rw [buildMarkerTable_eq_filter world items hn] at hkey
      obtain ⟨⟨id1, m1⟩, hq, hqid⟩ := List.mem_map.mp hkey
      obtain ⟨hq1, hq2⟩ := List.mem_filter.mp hq
      cases hqid
      have : m1 = m :=
        have := List.inj_on_of_nodup_map hn hq1 hmem rfl
        congrArg Prod.snd this
      exact hexcl ((markerKeptB_iff world id1 m).mp (this ▸ hq2))
    · intro x y z hadd
      exact add_mem_reconcile maps _ id x y z hadd

/-- Witness for the amended C5. -/
theorem c5_marker_loader_witness :
    loadMarkers
        (.parsed ⟨some [("markers",
          ⟨some [("5", ⟨"w", "foo", 0, 64, 0⟩), ("7", ⟨"w", "7", 1, 64, 2⟩)]⟩)]⟩)
        "markers" "w" =
      .ok (buildMarkerTable "w"
        [("5", ⟨"w", "foo", 0, 64, 0⟩), ("7", ⟨"w", "7", 1, 64, 2⟩)]) ∧
    Action.delete "5" ∉ reconcile []
      (buildMarkerTable "w" [("5", ⟨"w", "foo", 0, 64, 0⟩), ("7", ⟨"w", "7", 1, 64, 2⟩)]) := by
  have h := c5_marker_loader "w" "markers"
    [("markers", ⟨some [("5", ⟨"w", "foo", 0, 64, 0⟩), ("7", ⟨"w", "7", 1, 64, 2⟩)]⟩)]
    ⟨some [("5", ⟨"w", "foo", 0, 64, 0⟩), ("7", ⟨"w", "7", 1, 64, 2⟩)]⟩
    [("5", ⟨"w", "foo", 0, 64, 0⟩), ("7", ⟨"w", "7", 1, 64, 2⟩)] []
    (by decide) (by decide) (by decide)
  exact ⟨h.1, (h.2.2 "5" ⟨"w", "foo", 0, 64, 0⟩ (by decide) (by decide)).1⟩

/-! ### Error-path claims -/

/-- C7: `loadMarkers` takes the controlled print-error-and-exit-1 path
whenever the file cannot be opened or read (`IOError`), or the parsed document
lacks the top-level `sets` key. -/
theorem c7_loader_fatal (markerSet world : String) :
    ∀ input : MarkersInput,
      (input = .ioError ∨ ∃ doc, input = .parsed doc ∧ doc.sets = none) →
      ∃ msg, loadMarkers input markerSet world = .exit1 msg := by
  rintro input (rfl | ⟨doc, rfl, hsets⟩)
  · exact ⟨_, rfl⟩
  · refine ⟨"doesn't seem to be a markers file", ?_⟩
    simp only [loadMarkers, hsets]

/-- Witness for C7: the unopenable-file case and the missing-`sets` case. -/
theorem c7_loader_fatal_witness :
    (∃ msg, loadMarkers .ioError "markers" "w" = .exit1 msg) ∧
    (∃ msg, loadMarkers (.parsed ⟨none⟩) "markers" "w" = .exit1 msg) :=
  ⟨c7_loader_fatal "markers" "w" .ioError (Or.inl rfl),
    c7_loader_fatal "markers" "w" (.parsed ⟨none⟩) (Or.inr ⟨⟨none⟩, rfl, rfl⟩)⟩

/-- C8: a run with any argv other than the program name plus exactly five
positional arguments takes the usage-and-exit-1 branch before any other work;
exactly five positional arguments are unpacked and the run proceeds. -/
theorem c8_cli_args :
    (∀ argv : List String, argv.length ≠ 6 → parseArgs argv = .usageExit) ∧
    (∀ prog server world mapsDir markersFileName markerSet : String,
      parseArgs [prog, server, world, mapsDir, markersFileName, markerSet] =
        .run server world mapsDir markersFileName markerSet) := by
  constructor
  · intro argv h
    rcases argv with _ | ⟨a, _ | ⟨b, _ | ⟨c, _ | ⟨d, _ | ⟨e, _ | ⟨f, rest⟩⟩⟩⟩⟩⟩
    · rfl
    · rfl
    · rfl
    · rfl
    · rfl
    · rfl
    · cases rest with
      | nil => exact absurd rfl h
      | cons g rest2 => rfl
  · intro prog server world mapsDir markersFileName markerSet
    rfl

/-- Witness for C8: a two-argument invocation exits through usage, a correct
invocation proceeds. -/
theorem c8_cli_args_witness :
    parseArgs ["mapmarkers.py", "pve27"] = .usageExit ∧
    parseArgs ["mapmarkers.py", "pve27", "world", "data", "markers.yml", "markers"] =
      .run "pve27" "world" "data" "markers.yml" "markers" :=
  ⟨c8_cli_args.1 ["mapmarkers.py", "pve27"] (by decide),
    c8_cli_args.2 "mapmarkers.py" "pve27" "world" "data" "markers.yml" "markers"⟩

/-- C9: with `sets` present, a missing marker-set name or a missing `markers`
key under the set aborts with an uncaught KeyError, not the controlled path;
the controlled exit-1 path is reachable only for an IOError or a document
without the `sets` key. -/
theorem c9_keyerror_paths (markerSet world : String) :
    (∀ sets : List (String × MarkerSetEntry), alookup sets markerSet = none →
      loadMarkers (.parsed ⟨some sets⟩) markerSet world =
        .uncaught (.keyError markerSet)) ∧
    (∀ (sets : List (String × MarkerSetEntry)) (entry : MarkerSetEntry),
      alookup sets markerSet = some entry → entry.markers = none →
      loadMarkers (.parsed ⟨some sets⟩) markerSet world =
        .uncaught (.keyError "markers")) ∧
    (∀ (input : MarkersInput) (msg : String),
      loadMarkers input markerSet world = .exit1 msg →
      input = .ioError ∨ ∃ doc, input = .parsed doc ∧ doc.sets = none) := by
  refine ⟨?_, ?_, ?_⟩
  · intro sets hnone
    simp only [loadMarkers, hnone]
  · intro sets entry hsome hmarkers
    simp only [loadMarkers, hsome, hmarkers]
  · intro input msg h
    cases input with
    | ioError => exact Or.inl rfl
    | yamlError => cases h
    | parsed doc =>
      refine Or.inr ⟨doc, rfl, ?_⟩
      cases hs : doc.sets with
      | none => rfl
      | some sets =>
        exfalso
        simp only [loadMarkers, hs] at h
        cases he : alookup sets markerSet with
        | none => rw [he] at h; cases h
        | some entry =>
          rw [he] at h
          dsimp only at h
          cases hm : entry.markers with
          | none => rw [hm] at h; cases h
          | some items => rw [hm] at h; cases h

/-- Witness for C9: a concrete document whose `sets` lacks the requested set,
one whose set lacks `markers`, and the exit-1 inversion at the IOError input. -/
theorem c9_keyerror_paths_witness :
    loadMarkers (.parsed ⟨some []⟩) "markers" "w" = .uncaught (.keyError "markers") ∧
    loadMarkers (.parsed ⟨some [("markers", ⟨none⟩)]⟩) "markers" "w" =
      .uncaught (.keyError "markers") ∧
    (MarkersInput.ioError = .ioError ∨
      ∃ doc, MarkersInput.ioError = .parsed doc ∧ doc.sets = none) := by
  have h := c9_keyerror_paths "markers" "w"
  exact ⟨h.1 [] (by decide), h.2.1 [("markers", ⟨none⟩)] ⟨none⟩ (by decide) rfl,
    h.2.2 .ioError "cannot open markers file to read" (by decide)⟩

/-! ### Map Reducer analysis -/

/-- A record participates in the reduction when its dimension matches the
target world and its scale is 0 (lines 127 and 133). -/
def participatesB (world : String) (r : MapRecord) : Bool :=
  r.dimension == "minecraft:" ++ world && r.scale == 0

/-- Some participating record is centred at `(x, z)`. -/
def pairIn (world : String) (l : List MapRecord) (x z : Int) : Prop :=
  ∃ r ∈ l, participatesB world r = true ∧ r.x = x ∧ r.z = z

instance (world : String) (l : List MapRecord) (x z : Int) :
    Decidable (pairIn world l x z) := by
  unfold pairIn
  infer_instance

/-- The ids of the participating records centred at `(x, z)`. -/
def idsAt (world : String) (l : List MapRecord) (x z : Int) : List Nat :=
  (l.filter fun r => participatesB world r && r.x == x && r.z == z).map MapRecord.id

/-- The highest id among the participating records centred at `(x, z)`. -/
def maxIdAt (world : String) (l : List MapRecord) (x z : Int) : Nat :=
  (idsAt world l x z).foldl max 0

theorem idsAt_append (world : String) (l1 l2 : List MapRecord) (x z : Int) :
    idsAt world (l1 ++ l2) x z = idsAt world l1 x z ++ idsAt world l2 x z := by
  simp [idsAt]

theorem idsAt_single (world : String) (r : MapRecord) (x z : Int) :
    idsAt world [r] x z =
      if participatesB world r = true ∧ r.x = x ∧ r.z = z then [r.id] else [] := by
  by_cases h : participatesB world r = true ∧ r.x = x ∧ r.z = z
  · rw [if_pos h]
    simp [idsAt, List.filter_cons, h.1, h.2.1, h.2.2]
  · rw [if_neg h]
    rw [idsAt, List.filter_cons]
    rw [show (participatesB world r && r.x == x && r.z == z) = false by
      rcases Decidable.not_and_iff_or_not.mp h with h1 | h1
      · simp [Bool.eq_false_iff.mpr h1]
      · rcases Decidable.not_and_iff_or_not.mp h1 with h2 | h2 <;> simp [h2]]
    rfl

theorem idsAt_eq_nil_iff (world : String) (l : List MapRecord) (x z : Int) :
    idsAt world l x z = [] ↔ ¬ pairIn world l x z := by
  rw [idsAt, pairIn]
  constructor
  · intro h ⟨r, hr, hp, hx, hz⟩
    have : r ∈ List.filter (fun r => participatesB world r && r.x == x && r.z == z) l :=
      List.mem_filter.mpr ⟨hr, by simp [hp, hx, hz]⟩
    rw [List.map_eq_nil_iff] at h
    rw [h] at this
    simp at this
  · intro h
    rw [List.map_eq_nil_iff, List.filter_eq_nil_iff]
    intro r hr hc
    simp only [Bool.and_eq_true, beq_iff_eq] at hc
    exact h ⟨r, hr, hc.1.1, hc.1.2, hc.2⟩

theorem foldl_max_mem : ∀ (t : List Nat) (a : Nat), t.foldl max a ∈ a :: t := by
  intro t
  induction t with
  | nil => intro a; simp
  | cons b t ih =>
    intro a
    rw [List.foldl_cons]
    rcases List.mem_cons.mp (ih (max a b)) with h | h
    · rw [h]
      rcases Nat.le_total a b with h1 | h1
      · rw [show max a b = b by omega]
        simp
      · rw [show max a b = a by omega]
        simp
    · simp [h]

theorem maxIdAt_attained (world : String) (l : List MapRecord) (x z : Int)
    (h : pairIn world l x z) :
    ∃ r ∈ l, participatesB world r = true ∧ r.x = x ∧ r.z = z ∧
      r.id = maxIdAt world l x z := by
  have hne : idsAt world l x z ≠ [] := fun hc => (idsAt_eq_nil_iff world l x z).mp hc h
  have hmem : maxIdAt world l x z ∈ idsAt world l x z := by
    rw [maxIdAt]
    cases hl : idsAt world l x z with
    | nil => exact absurd hl hne
    | cons i t =>
      rw [List.foldl_cons, show max 0 i = i by omega]
      exact foldl_max_mem t i
  obtain ⟨r, hr, hid⟩ := List.mem_map.mp hmem
  obtain ⟨hrl, hcond⟩ := List.mem_filter.mp hr
  simp only [Bool.and_eq_true, beq_iff_eq] at hcond
  exact ⟨r, hrl, hcond.1.1, hcond.1.2, hcond.2, hid⟩

theorem pairIn_append_single (world : String) (l : List MapRecord) (r : MapRecord)
    (x z : Int) :
    pairIn world (l ++ [r]) x z ↔
      pairIn world l x z ∨ (participatesB world r = true ∧ r.x = x ∧ r.z = z) := by
  constructor
  · rintro ⟨q, hq, hP⟩
    rcases List.mem_append.mp hq with hq | hq
    · exact Or.inl ⟨q, hq, hP⟩
    · simp only [List.mem_singleton] at hq
      exact Or.inr (hq ▸ hP)
  · rintro (⟨q, hq, hP⟩ | hP)
    · exact ⟨q, List.mem_append_left _ hq, hP⟩
    · exact ⟨r, List.mem_append_right _ (List.mem_singleton_self r), hP⟩

theorem maxIdAt_append_single (world : String) (l : List MapRecord) (r : MapRecord)
    (x z : Int) :
    maxIdAt world (l ++ [r]) x z =
      if participatesB world r = true ∧ r.x = x ∧ r.z = z
      then max (maxIdAt world l x z) r.id
      else maxIdAt world l x z := by
  rw [maxIdAt, idsAt_append, idsAt_single]
  by_cases h : participatesB world r = true ∧ r.x = x ∧ r.z = z
  · rw [if_pos h, if_pos h, List.foldl_append, List.foldl_cons, List.foldl_nil]
    rfl
  · rw [if_neg h, if_neg h, List.append_nil]
    rfl

theorem maxIdAt_of_not_pairIn (world : String) (l : List MapRecord) (x z : Int)
    (h : ¬ pairIn world l x z) : maxIdAt world l x z = 0 := by
  rw [maxIdAt, (idsAt_eq_nil_iff world l x z).mpr h]
  rfl

/-- Loop invariant of `loadMaps` after processing the records `pre`:
`highestMapID` maps exactly the keys of participating coordinate pairs to
their highest participating id, and `allMaps` maps exactly the participating
ids to their centre coordinates. -/
structure MapsInv (world : String) (pre : List MapRecord) (st : MapsState) : Prop where
  hkeys : (st.highestMapID.map Prod.fst).Nodup
  hdom : ∀ ck ∈ st.highestMapID.map Prod.fst, ∃ x z, ck = coordsKey x z
  hhi : ∀ x z : Int, alookup st.highestMapID (coordsKey x z) =
    if pairIn world pre x z then some (maxIdAt world pre x z) else none
  hall : ∀ (i : Nat) (d : MapXZ), alookup st.allMaps i = some d ↔
    ∃ r ∈ pre, participatesB world r = true ∧ r.id = i ∧ d = ⟨r.x, r.z⟩

theorem mapsInv_init (world : String) : MapsInv world [] ⟨[], []⟩ := by
  refine ⟨List.nodup_nil, by simp, ?_, ?_⟩
  · intro x z
    rw [if_neg]
    · rfl
    · rintro ⟨r, hr, _⟩
      simp at hr
  · intro i d
    constructor
    · intro h
      simp at h
    · rintro ⟨r, hr, _⟩
      simp at hr

theorem hi_rhs_other (world : String) (pre : List MapRecord) (r : MapRecord) (x z : Int)
    (hxz : ¬(x = r.x ∧ z = r.z)) :
    (if pairIn world (pre ++ [r]) x z then some (maxIdAt world (pre ++ [r]) x z) else none) =
      (if pairIn world pre x z then some (maxIdAt world pre x z) else none) := by
  have hcond : pairIn world (pre ++ [r]) x z ↔ pairIn world pre x z := by
    rw [pairIn_append_single]
    constructor
    · rintro (h | ⟨_, hx, hz⟩)
      · exact h
      · exact absurd ⟨hx.symm, hz.symm⟩ hxz
    · exact Or.inl
  have hmax : maxIdAt world (pre ++ [r]) x z = maxIdAt world pre x z := by
    rw [maxIdAt_append_single, if_neg (fun hc => hxz ⟨hc.2.1.symm, hc.2.2.symm⟩)]
  rw [hmax, if_congr hcond rfl rfl]

theorem hi_rhs_skip (world : String) (pre : List MapRecord) (r : MapRecord) (x z : Int)
    (hpart : ¬ participatesB world r = true) :
    (if pairIn world (pre ++ [r]) x z then some (maxIdAt world (pre ++ [r]) x z) else none) =
      (if pairIn world pre x z then some (maxIdAt world pre x z) else none) := by
  have hcond : pairIn world (pre ++ [r]) x z ↔ pairIn world pre x z := by
    rw [pairIn_append_single]
    constructor
    · rintro (h | ⟨hp, _, _⟩)
      · exact h
      · exact absurd hp hpart
    · exact Or.inl
  have hmax : maxIdAt world (pre ++ [r]) x z = maxIdAt world pre x z := by
    rw [maxIdAt_append_single, if_neg (fun hc => hpart hc.1)]
  rw [hmax, if_congr hcond rfl rfl]

theorem hi_rhs_pair (world : String) (pre : List MapRecord) (r : MapRecord) (x z : Int)
    (hpart : participatesB world r = true) (hx : x = r.x) (hz : z = r.z) :
    (if pairIn world (pre ++ [r]) x z then some (maxIdAt world (pre ++ [r]) x z) else none) =
      some (max (maxIdAt world pre x z) r.id) := by
  have hpairNew : pairIn world (pre ++ [r]) x z :=
    (pairIn_append_single world pre r x z).mpr (Or.inr ⟨hpart, hx.symm, hz.symm⟩)
  rw [if_pos hpairNew, maxIdAt_append_single, if_pos ⟨hpart, hx.symm, hz.symm⟩]

theorem mapsInv_step (world : String) (pre : List MapRecord) (st : MapsState)
    (r : MapRecord) (hInv : MapsInv world pre st) (hfresh : ∀ q ∈ pre, q.id ≠ r.id) :
    MapsInv world (pre ++ [r]) (loadMapsStep world st r) := by
  by_cases hpart : participatesB world r = true
  · -- the record is processed
    have hds := hpart
    simp only [participatesB, Bool.and_eq_true, beq_iff_eq] at hds
    have hstep : loadMapsStep world st r =
        ⟨match alookup st.highestMapID (coordsKey r.x r.z) with
          | none => ainsert st.highestMapID (coordsKey r.x r.z) r.id
          | some old =>
            if old < r.id then ainsert st.highestMapID (coordsKey r.x r.z) r.id
            else st.highestMapID,
         ainsert st.allMaps r.id ⟨r.x, r.z⟩⟩ := by
      rw [loadMapsStep, if_pos hds.1, recordMap, if_pos hds.2]
    have hallNew : ∀ (i : Nat) (d : MapXZ),
        alookup (ainsert st.allMaps r.id ⟨r.x, r.z⟩) i = some d ↔
          ∃ q ∈ pre ++ [r], participatesB world q = true ∧ q.id = i ∧ d = ⟨q.x, q.z⟩ := by
      intro i d
      rw [alookup_ainsert]
      by_cases hi : r.id = i
      · rw [if_pos hi]
        constructor
        · intro h
          cases h
          exact ⟨r, List.mem_append_right _ (List.mem_singleton_self r), hpart, hi, rfl⟩
        · rintro ⟨q, hq, h1, h2, h3⟩
          rcases List.mem_append.mp hq with hq | hq
          · exact absurd (h2.trans hi.symm) (hfresh q hq)
          · simp only [List.mem_singleton] at hq
            subst hq
            rw [h3]
      · rw [if_neg hi, hInv.hall i d]
        constructor
        · rintro ⟨q, hq, h1, h2, h3⟩
          exact ⟨q, List.mem_append_left _ hq, h1, h2, h3⟩
        · rintro ⟨q, hq, h1, h2, h3⟩
          rcases List.mem_append.mp hq with hq | hq
          · exact ⟨q, hq, h1, h2, h3⟩
          · simp only [List.mem_singleton] at hq
            subst hq
            exact absurd h2 hi
    have hckey : ∀ x z : Int, ¬(x = r.x ∧ z = r.z) →
        ¬ (coordsKey r.x r.z = coordsKey x z) := by
      intro x z hxz hc
      obtain ⟨h1, h2⟩ := coordsKey_injective hc
      exact hxz ⟨h1.symm, h2.symm⟩
    rw [hstep]
    cases hlo : alookup st.highestMapID (coordsKey r.x r.z) with
    | none =>
      have hnp : ¬ pairIn world pre r.x r.z := by
        intro hp
        have h0 := hInv.hhi r.x r.z
        rw [hlo, if_pos hp] at h0
        cases h0
      refine ⟨ainsert_keys_nodup _ _ _ hInv.hkeys, ?_, ?_, hallNew⟩
      · intro ck hck
        rcases (mem_keys_ainsert _ _ _ ck).mp hck with h | h
        · exact ⟨r.x, r.z, h⟩
        · exact hInv.hdom ck h
      · intro x z
        by_cases hxz : x = r.x ∧ z = r.z
        · obtain ⟨hx, hz⟩ := hxz
          rw [hi_rhs_pair world pre r x z hpart hx hz]
          have hkey : coordsKey x z = coordsKey r.x r.z := by rw [hx, hz]
          rw [hkey, alookup_ainsert, if_pos rfl]
          have : maxIdAt world pre x z = 0 := by
            rw [hx, hz]
            exact maxIdAt_of_not_pairIn world pre r.x r.z hnp
          rw [this, show max 0 r.id = r.id by omega]
        · rw [hi_rhs_other world pre r x z hxz, alookup_ainsert,
            if_neg (hckey x z hxz)]
          exact hInv.hhi x z
    | some old =>
      have hpp : pairIn world pre r.x r.z ∧ old = maxIdAt world pre r.x r.z := by
        have h0 := hInv.hhi r.x r.z
        rw [hlo] at h0
        by_cases hp : pairIn world pre r.x r.z
        · rw [if_pos hp] at h0
          cases h0
          exact ⟨hp, rfl⟩
        · rw [if_neg hp] at h0
          cases h0
      dsimp only
      by_cases hlt : old < r.id
      · rw [if_pos hlt]
        refine ⟨ainsert_keys_nodup _ _ _ hInv.hkeys, ?_, ?_, hallNew⟩
        · intro ck hck
          rcases (mem_keys_ainsert _ _ _ ck).mp hck with h | h
          · exact ⟨r.x, r.z, h⟩
          · exact hInv.hdom ck h
        · intro x z
          by_cases hxz : x = r.x ∧ z = r.z
          · obtain ⟨hx, hz⟩ := hxz
            rw [hi_rhs_pair world pre r x z hpart hx hz]
            have hkey : coordsKey x z = coordsKey r.x r.z := by rw [hx, hz]
            rw [hkey, alookup_ainsert, if_pos rfl]
            have hmx : maxIdAt world pre x z = old := by
              rw [hx, hz]
              exact hpp.2.symm
            rw [hmx, show max old r.id = r.id by omega]
          · rw [hi_rhs_other world pre r x z hxz, alookup_ainsert,
              if_neg (hckey x z hxz)]
            exact hInv.hhi x z
      · rw [if_neg hlt]
        refine ⟨hInv.hkeys, hInv.hdom, ?_, hallNew⟩
        intro x z
        by_cases hxz : x = r.x ∧ z = r.z
        · obtain ⟨hx, hz⟩ := hxz
          rw [hi_rhs_pair world pre r x z hpart hx hz]
          have hkey : coordsKey x z = coordsKey r.x r.z := by rw [hx, hz]
          rw [hkey, hlo]
          have hmx : maxIdAt world pre x z = old := by
            rw [hx, hz]
            exact hpp.2.symm
          rw [hmx, show max old r.id = old by omega]
        · rw [hi_rhs_other world pre r x z hxz]
          exact hInv.hhi x z
  · -- the record is skipped, either by dimension or by scale
    have hstep : loadMapsStep world st r = st := by
      rw [loadMapsStep]
      by_cases hd : r.dimension = "minecraft:" ++ world
      · rw [if_pos hd, recordMap, if_neg]
        intro hs
        exact hpart (by simp [participatesB, hd, hs])
      · rw [if_neg hd]
    rw [hstep]
    refine ⟨hInv.hkeys, hInv.hdom, ?_, ?_⟩
    · intro x z
      rw [hi_rhs_skip world pre r x z hpart]
      exact hInv.hhi x z
    · intro i d
      rw [hInv.hall i d]
      constructor
      · rintro ⟨q, hq, h1, h2, h3⟩
        exact ⟨q, List.mem_append_left _ hq, h1, h2, h3⟩
      · rintro ⟨q, hq, h1, h2, h3⟩
        rcases List.mem_append.mp hq with hq | hq
        · exact ⟨q, hq, h1, h2, h3⟩
        · simp only [List.mem_singleton] at hq
          subst hq
          exact absurd h1 hpart

theorem mapsInv_foldl (world : String) :
    ∀ (l pre : List MapRecord) (st : MapsState),
      ((pre ++ l).map MapRecord.id).Nodup → MapsInv world pre st →
      MapsInv world (pre ++ l) (l.foldl (loadMapsStep world) st) := by
  intro l
  induction l with
  | nil =>
    intro pre st h hI
    rw [List.append_nil]
    exact hI
  | cons r l ih =>
    intro pre st h hI
    have hfresh : ∀ q ∈ pre, q.id ≠ r.id := by
      intro q hq hc
      rw [List.map_append] at h
      have hdisj := (List.nodup_append.mp h).2.2
      refine hdisj (List.mem_map_of_mem MapRecord.id hq) ?_
      rw [hc, List.map_cons]
      exact List.mem_cons_self _ _
    have hstep := mapsInv_step world pre st r hI hfresh
    have hres := ih (pre ++ [r]) (loadMapsStep world st r)
      (by rw [List.append_assoc, List.singleton_append]; exact h) hstep
    rw [List.append_assoc, List.singleton_append] at hres
    exact hres

theorem mapsInv_reduce (world : String) (records : List MapRecord)
    (hn : (records.map MapRecord.id).Nodup) :
    MapsInv world records (records.foldl (loadMapsStep world) ⟨[], []⟩) := by
  have h := mapsInv_foldl world records [] ⟨[], []⟩ (by simpa using hn) (mapsInv_init world)
  simpa using h

theorem foldl_ainsert_eq_map (f : String × Nat → String × MapXZ) :
    ∀ (l : List (String × Nat)) (acc : List (String × MapXZ)),
      ((l.map f).map Prod.fst).Nodup →
      (∀ k ∈ acc.map Prod.fst, k ∉ (l.map f).map Prod.fst) →
      l.foldl (fun res p => ainsert res (f p).1 (f p).2) acc = acc ++ l.map f := by
  intro l
  induction l with
  | nil =>
    intro acc _ _
    simp
  | cons p l ih =>
    intro acc hn hdisj
    rw [List.foldl_cons]
    simp only [List.map_cons, List.nodup_cons] at hn
    have hfresh : (f p).1 ∉ acc.map Prod.fst := by
      intro hc
      refine hdisj _ hc ?_
      rw [List.map_cons, List.map_cons]
      exact List.mem_cons_self _ _
    rw [ainsert_eq_append acc (f p).1 (f p).2 hfresh]
    rw [ih (acc ++ [((f p).1, (f p).2)]) hn.2 ?_]
    · simp
    · intro k hk
      rw [List.map_append] at hk
      rcases List.mem_append.mp hk with hk | hk
      · intro hc
        refine hdisj k hk ?_
        rw [List.map_cons, List.map_cons]
        exact List.mem_cons_of_mem _ hc
      · simp only [List.map_cons, List.map_nil, List.mem_singleton] at hk
        rw [hk]
        exact hn.1

/-- The value function applied per entry of `highestMapID` at lines 145-146. -/
def finishEntry (st : MapsState) (p : String × Nat) : String × MapXZ :=
  (natStr p.2, (alookup st.allMaps p.2).getD ⟨0, 0⟩)

theorem natStr_injective : Function.Injective natStr := by
  intro a b h
  apply natChars_injective
  injection h

theorem highest_entry_spec (world : String) (records : List MapRecord) (st : MapsState)
    (hI : MapsInv world records st) :
    ∀ p ∈ st.highestMapID, ∃ x z : Int, p.1 = coordsKey x z ∧ pairIn world records x z ∧
      p.2 = maxIdAt world records x z := by
  rintro ⟨ck, i⟩ hp
  obtain ⟨x, z, hck⟩ := hI.hdom ck (List.mem_map_of_mem Prod.fst hp)
  have hlook : alookup st.highestMapID ck = some i :=
    (alookup_eq_some_iff_mem st.highestMapID hI.hkeys ck i).mpr hp
  rw [hck] at hlook
  rw [hI.hhi x z] at hlook
  by_cases hpp : pairIn world records x z
  · rw [if_pos hpp] at hlook
    cases hlook
    exact ⟨x, z, hck, hpp, rfl⟩
  · rw [if_neg hpp] at hlook
    cases hlook

theorem highest_snd_nodup (world : String) (records : List MapRecord) (st : MapsState)
    (hI : MapsInv world records st) (hn : (records.map MapRecord.id).Nodup) :
    (st.highestMapID.map Prod.snd).Nodup := by
  refine List.Nodup.map_on ?_ (hI.hkeys.of_map Prod.fst)
  intro p1 h1 p2 h2 hsnd
  obtain ⟨x1, z1, hck1, hp1, hi1⟩ := highest_entry_spec world records st hI p1 h1
  obtain ⟨x2, z2, hck2, hp2, hi2⟩ := highest_entry_spec world records st hI p2 h2
  obtain ⟨r1, hr1, hq1, hqx1, hqz1, hqi1⟩ := maxIdAt_attained world records x1 z1 hp1
  obtain ⟨r2, hr2, hq2, hqx2, hqz2, hqi2⟩ := maxIdAt_attained world records x2 z2 hp2
  have hID : r1.id = r2.id := by
    rw [hqi1, hqi2, ← hi1, ← hi2, hsnd]
  have hrr : r1 = r2 := List.inj_on_of_nodup_map hn hr1 hr2 hID
  have hx : x1 = x2 := by rw [← hqx1, ← hqx2, hrr]
  have hz : z1 = z2 := by rw [← hqz1, ← hqz2, hrr]
  have hck : p1.1 = p2.1 := by rw [hck1, hck2, hx, hz]
  obtain ⟨a1, b1⟩ := p1
  obtain ⟨a2, b2⟩ := p2
  simp only at hck hsnd
  rw [hck, hsnd]

theorem finishEntry_value (world : String) (records : List MapRecord) (st : MapsState)
    (hI : MapsInv world records st) (x z : Int) (i : Nat)
    (hpp : pairIn world records x z) (hi : i = maxIdAt world records x z) :
    (alookup st.allMaps i).getD ⟨0, 0⟩ = ⟨x, z⟩ := by
  obtain ⟨r, hr, hq, hqx, hqz, hqi⟩ := maxIdAt_attained world records x z hpp
  have : alookup st.allMaps i = some ⟨r.x, r.z⟩ :=
    (hI.hall i ⟨r.x, r.z⟩).mpr ⟨r, hr, hq, by rw [hqi, hi], rfl⟩
  rw [this, Option.getD_some, hqx, hqz]

/-- Master characterization of the Map Reducer on records with pairwise
distinct ids: the keys of the output are distinct, and the entries are
exactly one per distinct participating coordinate pair, keyed by the decimal
string of the highest participating id at that pair and valued by the pair. -/
theorem reduceMaps_spec (world : String) (records : List MapRecord)
    (hn : (records.map MapRecord.id).Nodup) :
    ((reduceMaps world records).map Prod.fst).Nodup ∧
    ∀ (k : String) (d : MapXZ),
      (k, d) ∈ reduceMaps world records ↔
        pairIn world records d.x d.z ∧ k = natStr (maxIdAt world records d.x d.z) := by
  have hI := mapsInv_reduce world records hn
  set st := records.foldl (loadMapsStep world) (⟨[], []⟩ : MapsState) with hst
  have hkeysNodup : ((st.highestMapID.map (finishEntry st)).map Prod.fst).Nodup := by
    have h1 : (st.highestMapID.map (finishEntry st)).map Prod.fst =
        (st.highestMapID.map Prod.snd).map natStr := by
      rw [List.map_map, List.map_map]
      rfl
    rw [h1]
    exact (highest_snd_nodup world records st hI hn).map natStr_injective
  have hfin : reduceMaps world records = st.highestMapID.map (finishEntry st) := by
    rw [reduceMaps, ← hst, loadMapsFinish]
    have h := foldl_ainsert_eq_map (finishEntry st) st.highestMapID [] hkeysNodup (by simp)
    rw [List.nil_append] at h
    exact h
  constructor
  · rw [hfin]
    exact hkeysNodup
  · intro k d
    rw [hfin]
    constructor
    · intro hmem
      obtain ⟨p, hp, hfp⟩ := List.mem_map.mp hmem
      obtain ⟨x, z, hck, hpp, hi⟩ := highest_entry_spec world records st hI p hp
      have hval : (alookup st.allMaps p.2).getD ⟨0, 0⟩ = ⟨x, z⟩ :=
        finishEntry_value world records st hI x z p.2 hpp hi
      rw [finishEntry, hval] at hfp
      have hk : k = natStr p.2 := by
        have := congrArg Prod.fst hfp
        simpa using this.symm
      have hd : d = ⟨x, z⟩ := by
        have := congrArg Prod.snd hfp
        simpa using this.symm
      have hdx : d.x = x := by rw [hd]
      have hdz : d.z = z := by rw [hd]
      rw [hdx, hdz]
      exact ⟨hpp, by rw [hk, hi]⟩
    · rintro ⟨hpp, hk⟩
      have hlook : alookup st.highestMapID (coordsKey d.x d.z) =
          some (maxIdAt world records d.x d.z) := by
        rw [hI.hhi d.x d.z, if_pos hpp]
      have hp : (coordsKey d.x d.z, maxIdAt world records d.x d.z) ∈ st.highestMapID :=
        (alookup_eq_some_iff_mem st.highestMapID hI.hkeys _ _).mp hlook
      refine List.mem_map.mpr ⟨_, hp, ?_⟩
      rw [finishEntry]
      have hval : (alookup st.allMaps (maxIdAt world records d.x d.z)).getD ⟨0, 0⟩ =
          ⟨d.x, d.z⟩ :=
        finishEntry_value world records st hI d.x d.z _ hpp rfl
      rw [hval, ← hk]

theorem pairIn_perm {l1 l2 : List MapRecord} (hp : l1.Perm l2) (world : String)
    (x z : Int) : pairIn world l1 x z ↔ pairIn world l2 x z := by
  constructor
  · rintro ⟨r, hr, h⟩
    exact ⟨r, hp.mem_iff.mp hr, h⟩
  · rintro ⟨r, hr, h⟩
    exact ⟨r, hp.mem_iff.mpr hr, h⟩

theorem maxIdAt_perm {l1 l2 : List MapRecord} (hp : l1.Perm l2) (world : String)
    (x z : Int) : maxIdAt world l1 x z = maxIdAt world l2 x z := by
  rw [maxIdAt, maxIdAt, idsAt, idsAt]
  exact ((hp.filter _).map MapRecord.id).foldl_eq 0

/-- C2 counterexample: with a duplicated map id (reachable from a real maps
directory, e.g. `map_5.dat` alongside `map_05.dat`, both parsing to id 5) at
two distinct centres, the `allMaps[mapID]` overwrite makes the output lose one
of the two distinct participating (x, z) pairs: (0, 0) participates yet no
output entry is valued (0, 0). -/
theorem c2_counterexample :
    (∃ r ∈ [(⟨5, "minecraft:w", 0, 0, 0⟩ : MapRecord), ⟨5, "minecraft:w", 0, 1, 1⟩],
      participatesB "w" r = true ∧ r.x = 0 ∧ r.z = 0) ∧
    ∀ e ∈ reduceMaps "w"
        [(⟨5, "minecraft:w", 0, 0, 0⟩ : MapRecord), ⟨5, "minecraft:w", 0, 1, 1⟩],
      e.2 ≠ (⟨0, 0⟩ : MapXZ) := by
  decide

/-- C2 (amended): for records with pairwise-distinct ids, the output of the
Map Reducer has one entry per distinct (x, z) pair among the participating
(matching dimension, scale 0) records, keyed by the decimal string of the
highest id sharing that pair and valued by that pair; non-participating
records contribute nothing. -/
theorem c2_map_reducer (world : String) (records : List MapRecord)
    (hn : (records.map MapRecord.id).Nodup) :
    ((reduceMaps world records).map Prod.fst).Nodup ∧
    ∀ (k : String) (x z : Int),
      (k, (⟨x, z⟩ : MapXZ)) ∈ reduceMaps world records ↔
        (∃ r ∈ records, participatesB world r = true ∧ r.x = x ∧ r.z = z) ∧
        k = natStr (maxIdAt world records x z) := by
  obtain ⟨h1, h2⟩ := reduceMaps_spec world records hn
  exact ⟨h1, fun k x z => h2 k ⟨x, z⟩⟩

/-- Witness for the amended C2: ids 7 and 12 at the same centre reduce to the
single entry keyed "12". -/
theorem c2_map_reducer_witness :
    ((reduceMaps "w" [(⟨7, "minecraft:w", 0, 0, 0⟩ : MapRecord),
      ⟨12, "minecraft:w", 0, 0, 0⟩]).map Prod.fst).Nodup ∧
    (("12" : String), (⟨0, 0⟩ : MapXZ)) ∈
      reduceMaps "w" [(⟨7, "minecraft:w", 0, 0, 0⟩ : MapRecord),
        ⟨12, "minecraft:w", 0, 0, 0⟩] := by
  have h := c2_map_reducer "w"
    [(⟨7, "minecraft:w", 0, 0, 0⟩ : MapRecord), ⟨12, "minecraft:w", 0, 0, 0⟩] (by decide)
  refine ⟨h.1, (h.2 "12" 0 0).mpr ⟨?_, by decide⟩⟩
  exact ⟨⟨12, "minecraft:w", 0, 0, 0⟩, by decide, by decide, rfl, rfl⟩

/-- C6 counterexample: with a duplicated id the reduction is order-dependent:
the two enumeration orders of the same two records produce different entry
sets. -/
theorem c6_counterexample :
    ([(⟨5, "minecraft:w", 0, 0, 0⟩ : MapRecord), ⟨5, "minecraft:w", 0, 1, 1⟩].Perm
      [⟨5, "minecraft:w", 0, 1, 1⟩, ⟨5, "minecraft:w", 0, 0, 0⟩]) ∧
    ((natStr 5, (⟨1, 1⟩ : MapXZ)) ∈ reduceMaps "w"
      [(⟨5, "minecraft:w", 0, 0, 0⟩ : MapRecord), ⟨5, "minecraft:w", 0, 1, 1⟩]) ∧
    ((natStr 5, (⟨1, 1⟩ : MapXZ)) ∉ reduceMaps "w"
      [(⟨5, "minecraft:w", 0, 1, 1⟩ : MapRecord), ⟨5, "minecraft:w", 0, 0, 0⟩]) :=
  ⟨List.Perm.swap _ _ _, by decide, by decide⟩

/-- C6 (amended): on records with pairwise-distinct ids the reduction is a
pure function of the input multiset: any two enumeration orders produce the
same set of entries. -/
theorem c6_reducer_order_independent (world : String) (l1 l2 : List MapRecord)
    (hn : (l1.map MapRecord.id).Nodup) (hp : l1.Perm l2) :
    ∀ e, e ∈ reduceMaps world l1 ↔ e ∈ reduceMaps world l2 := by
  intro e
  obtain ⟨k, d⟩ := e
  have hn2 : (l2.map MapRecord.id).Nodup := (hp.map MapRecord.id).nodup_iff.mp hn
  rw [(reduceMaps_spec world l1 hn).2 k d, (reduceMaps_spec world l2 hn2).2 k d,
    pairIn_perm hp world d.x d.z, maxIdAt_perm hp world d.x d.z]

/-- Witness for the amended C6 at a concrete pair of enumeration orders. -/
theorem c6_reducer_order_independent_witness :
    (natStr 12, (⟨0, 0⟩ : MapXZ)) ∈
        reduceMaps "w" [(⟨7, "minecraft:w", 0, 0, 0⟩ : MapRecord),
          ⟨12, "minecraft:w", 0, 0, 0⟩] ↔
      (natStr 12, (⟨0, 0⟩ : MapXZ)) ∈
        reduceMaps "w" [(⟨12, "minecraft:w", 0, 0, 0⟩ : MapRecord),
          ⟨7, "minecraft:w", 0, 0, 0⟩] :=
  c6_reducer_order_independent "w"
    [(⟨7, "minecraft:w", 0, 0, 0⟩ : MapRecord), ⟨12, "minecraft:w", 0, 0, 0⟩]
    [(⟨12, "minecraft:w", 0, 0, 0⟩ : MapRecord), ⟨7, "minecraft:w", 0, 0, 0⟩]
    (by decide) (List.Perm.swap _ _ _) (natStr 12, ⟨0, 0⟩)

/-! ### Record Loader filename claims -/

/-- A basename of the exact form `map_<digits>.dat` with at least one digit. -/
def wellFormedMapName (name : String) : Bool :=
  match name.data with
  | 'm' :: 'a' :: 'p' :: '_' :: s =>
    !(s.takeWhile Char.isDigit).isEmpty &&
      s.dropWhile Char.isDigit == ('.' :: 'd' :: 'a' :: 't' :: [])
  | _ => false

theorem mapIdOfName_isSome (name : String) (h : wellFormedMapName name = true) :
    (mapIdOfName name).isSome = true := by
  rw [wellFormedMapName] at h
  split at h
  case h_2 => cases h
  case h_1 s heq =>
    simp only [Bool.and_eq_true, Bool.not_eq_true', List.isEmpty_eq_false_iff_exists_mem,
      beq_iff_eq] at h
    obtain ⟨h1, h2⟩ := h
    simp only [mapIdOfName, heq]
    have htake : s.takeWhile Char.isDigit ≠ [] := by
      obtain ⟨c, hc⟩ := h1
      intro hnil
      rw [hnil] at hc
      simp at hc
    rw [h2]
    cases hrev : (s.takeWhile Char.isDigit).reverse with
    | nil =>
      exfalso
      have := congrArg List.reverse hrev
      rw [List.reverse_reverse] at this
      exact htake this
    | cons c revds =>
      rw [regexDigits,
        if_pos (show matchAnyDat ('.' :: 'd' :: 'a' :: 't' :: []) = true from rfl)]
      rfl

theorem option_isSome_map {α β : Type} (f : α → β) (o : Option α) :
    (Option.map f o).isSome = o.isSome := by
  cases o <;> rfl

theorem foldlM_option_isSome {σ α : Type} (g : σ → α → Option σ) :
    ∀ (l : List α) (st : σ), (∀ (s1 : σ) (a : α), a ∈ l → (g s1 a).isSome = true) →
      (l.foldlM g st).isSome = true := by
  intro l
  induction l with
  | nil => intro st _; rfl
  | cons a l ih =>
    intro st h
    rw [List.foldlM_cons]
    have ha := h st a (List.mem_cons_self _ _)
    cases hg : g st a with
    | none => rw [hg] at ha; cases ha
    | some st1 =>
      exact ih st1 fun s1 b hb => h s1 b (List.mem_cons_of_mem _ hb)

/-- C10: `loadMaps` is total only under the precondition that every file the
glob matches has a name of the exact form `map_<digits>.dat`: under that
precondition every run returns a table, while a dimension-matching file named
`map_x.dat` makes the filename regex match come back `None` and the run abort
with an uncaught `AttributeError` (the `none` outcome of the model). -/
theorem c10_loadmaps_filename :
    (∀ (world : String) (files : List MapFile),
      (∀ f ∈ files, globMatch f.name = true → wellFormedMapName f.name = true) →
      (loadMapsFiles world files).isSome = true) ∧
    loadMapsFiles "overworld" [⟨"map_x.dat", "minecraft:overworld", 0, 0, 0⟩] = none := by
  constructor
  · intro world files hwf
    rw [loadMapsFiles]
    rw [option_isSome_map]
    refine foldlM_option_isSome _ _ _ ?_
    intro st f hf
    have hf2 : f ∈ files.filter fun f => globMatch f.name :=
      (List.mem_insertionSort _).mp hf
    obtain ⟨hfiles, hglob⟩ := List.mem_filter.mp hf2
    by_cases hd : f.dimension = "minecraft:" ++ world
    · rw [if_pos hd]
      have hsome := mapIdOfName_isSome f.name (hwf f hfiles hglob)
      cases hm : mapIdOfName f.name with
      | none => rw [hm] at hsome; cases hsome
      | some i => rfl
    · rw [if_neg hd]
      rfl
  · decide

/-- Witness for C10: a directory of well-formed names loads successfully. -/
theorem c10_loadmaps_filename_witness :
    (loadMapsFiles "overworld"
      [⟨"map_12.dat", "minecraft:overworld", 0, 3, 4⟩,
        ⟨"map_7.dat", "minecraft:overworld", 1, 0, 0⟩]).isSome = true :=
  c10_loadmaps_filename.1 "overworld"
    [⟨"map_12.dat", "minecraft:overworld", 0, 3, 4⟩,
      ⟨"map_7.dat", "minecraft:overworld", 1, 0, 0⟩]
    (by decide)

end MapMarkers
